import Mathlib

/-!
# Verification of the schema-generator application

A shallow embedding, in Lean 4, of the core of `src/app.py`:

* `RateLimiter` — the sliding-window rate limiter (`RateLimiter.wait`,
  `src/app.py` lines 17–53);
* the JSON extraction/parsing pipeline of `SchemaGenerator.generate_schema`
  (lines 62–99), including a model of Python's `json.loads` / `json.dumps`
  restricted to integer numerals (floating-point numerals are outside the
  embedding) and of the fenced-code-block regular-expression search;
* the multi-file upload path `_upload_schema_files` (lines 138–196);
* the export path of `_view_records` (lines 266–275) and the persistence
  step of `run` (lines 316–330).

Times are modelled as rationals (Python uses `time.time()` floats; no claim
depends on floating-point rounding).  Text is modelled as `List Char`, bytes
as `List ℕ`.  All definitions are executable, so concrete runs evaluate by
`decide` / `rfl`.
-/

set_option autoImplicit false

namespace App

/-! ## RateLimiter (src/app.py lines 17–53)

State of one `RateLimiter` instance: the configuration and the deque
`request_times`.  The Python lock serialises the body of `wait`; a call is
therefore modelled as one atomic state transition taking the time read at
entry (line 35, `current_time = time.time()`) as input.
-/

structure RateLimiter where
  max_requests : ℕ
  time_frame : ℚ
  request_times : List ℚ
  deriving Repr, DecidableEq

/-- The eviction loop of `wait` (lines 39–40):
`while self.request_times and current_time - self.request_times[0] > self.time_frame:
self.request_times.popleft()`. -/
def evictOld (time_frame now : ℚ) (l : List ℚ) : List ℚ :=
  l.dropWhile (fun t => decide (time_frame < now - t))

/-- The argument the code passes to `time.sleep` (lines 43–50), or `0` when
no sleep happens.  The `[]` branch is unreachable when `max_requests` is
positive (the Python code would raise `IndexError` there for
`max_requests = 0`; the spec requires positive configuration). -/
def sleepDuration (rl : RateLimiter) (now : ℚ) : ℚ :=
  if rl.max_requests ≤ (evictOld rl.time_frame now rl.request_times).length then
    match evictOld rl.time_frame now rl.request_times with
    | [] => 0
    | oldest :: _ =>
      if 0 < rl.time_frame - (now - oldest) then rl.time_frame - (now - oldest)
      else 0
  else 0

/-- One call to `RateLimiter.wait` (lines 30–53), as a state transition.
Input: the time read at entry (line 35).  Output: the new limiter state and
the time slept.  Note the source appends `current_time` — the entry time —
at line 53 even when the call slept, and performs no re-check after the
sleep (the `time.sleep` at line 50 happens inside the `with self._lock`
block and is followed directly by the append). -/
def RateLimiter.wait (rl : RateLimiter) (now : ℚ) : RateLimiter × ℚ :=
  (⟨rl.max_requests, rl.time_frame,
    evictOld rl.time_frame now rl.request_times ++ [now]⟩,
   sleepDuration rl now)

/-- Run a sequence of `wait` calls.  The i-th call enters at the i-th listed
time; returns the final limiter state together with the list of
(entry time, return time) pairs; the return time of a call is its entry time
plus the time it slept. -/
def runCalls (rl : RateLimiter) : List ℚ → RateLimiter × List (ℚ × ℚ)
  | [] => (rl, [])
  | t :: ts =>
    let step := rl.wait t
    let rest := runCalls step.1 ts
    (rest.1, (t, t + step.2) :: rest.2)

/-- A trace of entry times is sequentially realisable when every call enters
no earlier than the previous call returned (a single caller looping). -/
def SequentialTrace (rl : RateLimiter) : List ℚ → Prop
  | [] => True
  | [_] => True
  | t₁ :: t₂ :: ts =>
    t₂ ≥ t₁ + (rl.wait t₁).2 ∧ SequentialTrace (rl.wait t₁).1 (t₂ :: ts)

/-- The property claimed of the recorded acquisition timestamps: no
`time_frame`-wide window of real time contains more than `max_requests` of
them. -/
def slidingWindowOk (time_frame : ℚ) (max_requests : ℕ) (recorded : List ℚ) : Prop :=
  ∀ a : ℚ,
    (recorded.filter (fun t => decide (a ≤ t ∧ t ≤ a + time_frame))).length
      ≤ max_requests

/-- Head of the evicted deque is within the window: the `while` loop stopped
because `now - head ≤ time_frame`. -/
theorem evictOld_head_le (time_frame now : ℚ) (l : List ℚ) (o : ℚ) (t : List ℚ)
    (h : evictOld time_frame now l = o :: t) : now - o ≤ time_frame := by
  induction l with
  | nil => simp [evictOld] at h
  | cons x xs ih =>
    by_cases hx : time_frame < now - x
    · apply ih
      simpa [evictOld, List.dropWhile_cons, hx] using h
    · have hstep : evictOld time_frame now (x :: xs) = x :: xs := by
        simp [evictOld, List.dropWhile_cons, hx]
      rw [hstep] at h
      cases h
      linarith

/-- The deque after a `wait` call is always the evicted deque with the entry
time appended (line 53 appends `current_time`, the value read at line 35,
whether or not the call slept). -/
theorem wait_request_times (rl : RateLimiter) (now : ℚ) :
    (rl.wait now).1.request_times
      = evictOld rl.time_frame now rl.request_times ++ [now] := rfl

theorem evictOld_keep {time_frame now x : ℚ} {xs : List ℚ}
    (h : ¬ time_frame < now - x) :
    evictOld time_frame now (x :: xs) = x :: xs := by
  simp [evictOld, List.dropWhile_cons, h]

theorem sleepDuration_of_room {rl : RateLimiter} {now : ℚ}
    (h : (evictOld rl.time_frame now rl.request_times).length
          < rl.max_requests) :
    sleepDuration rl now = 0 := by
  rw [sleepDuration, if_neg (by omega)]

theorem sleepDuration_of_full {rl : RateLimiter} {now oldest : ℚ}
    {t : List ℚ}
    (hev : evictOld rl.time_frame now rl.request_times = oldest :: t)
    (hfull : rl.max_requests ≤ (oldest :: t).length) :
    sleepDuration rl now = rl.time_frame - (now - oldest) := by
  have hle : now - oldest ≤ rl.time_frame :=
    evictOld_head_le rl.time_frame now rl.request_times oldest t hev
  rw [sleepDuration, hev, if_pos hfull]
  show (if 0 < rl.time_frame - (now - oldest) then rl.time_frame - (now - oldest)
        else 0) = _
  by_cases hw : 0 < rl.time_frame - (now - oldest)
  · rw [if_pos hw]
  · rw [if_neg hw]; linarith

/-- C1: the sliding-window invariant fails on the code.  With
`max_requests = 1`, `time_frame = 60` and a single sequential caller
acquiring at t = 0 and t = 1, the recorded timestamps are `[0, 1]`: the
60-second window starting at 0 contains 2 > 1 recorded acquisitions.  (The
second call sleeps 59 seconds but then appends its stale entry time without
re-checking.) -/
theorem rateLimiter_sliding_window_violated :
    SequentialTrace ⟨1, 60, []⟩ [0, 1] ∧
    (runCalls ⟨1, 60, []⟩ [0, 1]).1.request_times = [0, 1] ∧
    ¬ slidingWindowOk 60 1 (runCalls ⟨1, 60, []⟩ [0, 1]).1.request_times := by
  have e1 : evictOld 60 0 ([] : List ℚ) = [] := rfl
  have s1 : sleepDuration ⟨1, 60, []⟩ 0 = 0 :=
    sleepDuration_of_room (by rw [e1]; simp)
  have w1 : RateLimiter.wait ⟨1, 60, []⟩ 0 = (⟨1, 60, [0]⟩, 0) := by
    rw [RateLimiter.wait, s1, e1]
    rfl
  have e2 : evictOld 60 1 [(0 : ℚ)] = [0] := evictOld_keep (by norm_num)
  have s2 : sleepDuration ⟨1, 60, [0]⟩ 1 = 59 := by
    rw [sleepDuration_of_full (t := []) e2 (by simp)]
    norm_num
  have w2 : RateLimiter.wait ⟨1, 60, [0]⟩ 1 = (⟨1, 60, [0, 1]⟩, 59) := by
    rw [RateLimiter.wait, s2, e2]
    rfl
  have hrun : runCalls ⟨1, 60, []⟩ [0, 1] = (⟨1, 60, [0, 1]⟩, [(0, 0), (1, 60)]) := by
    rw [runCalls, w1, runCalls, w2, runCalls]
    norm_num
  refine ⟨?_, by rw [hrun], fun h => ?_⟩
  · refine ⟨?_, trivial⟩
    rw [w1]
    norm_num
  · have h0 := h 0
    rw [hrun] at h0
    norm_num [List.filter_cons] at h0

/-- C2: `wait` does not re-validate after sleeping.  With
`max_requests = 1`, `time_frame = 60`, deque `[0]` and entry time 1, the
call sleeps 59 seconds (a positive wait) and the resulting deque is
`[0, 1]`: the entry time 1 was appended directly after the sleep — the old
entry was not re-evicted, the quota was not re-checked (by return time 60
the appended timestamp is 59 seconds stale), and the sleep happens inside
the `with self._lock` block (source lines 37–53). -/
theorem wait_appends_stale_time_after_sleep :
    (RateLimiter.wait ⟨1, 60, [0]⟩ 1).2 = 59 ∧
    (RateLimiter.wait ⟨1, 60, [0]⟩ 1).1.request_times = [0, 1] := by
  have e2 : evictOld 60 1 [(0 : ℚ)] = [0] := evictOld_keep (by norm_num)
  have s2 : sleepDuration ⟨1, 60, [0]⟩ 1 = 59 := by
    rw [sleepDuration_of_full (t := []) e2 (by simp)]
    norm_num
  exact ⟨s2, by rw [wait_request_times, e2]; rfl⟩

/-- C3: when after eviction at least `max_requests` timestamps remain, the
time slept is exactly `time_frame - (now - oldest)` where `oldest` is the
front of the evicted deque (the oldest remaining entry), and the call then
records its grant and returns. -/
theorem wait_blocks_exact_formula (rl : RateLimiter) (now oldest : ℚ)
    (t : List ℚ)
    (hev : evictOld rl.time_frame now rl.request_times = oldest :: t)
    (hfull : rl.max_requests ≤ (oldest :: t).length)
    (_holdest : ∀ x ∈ oldest :: t, oldest ≤ x) :
    (rl.wait now).2 = rl.time_frame - (now - oldest) ∧
    (rl.wait now).1.request_times = (oldest :: t) ++ [now] := by
  refine ⟨sleepDuration_of_full hev hfull, ?_⟩
  rw [wait_request_times, hev]

/-- Witness for `wait_blocks_exact_formula`: limiter with quota 1, window
60, deque `[0]`, entry at time 1: sleeps 59 and records `[0, 1]`. -/
theorem wait_blocks_exact_formula_witness :
    (RateLimiter.wait ⟨1, 60, [0]⟩ 1).2 = 60 - (1 - 0) ∧
    (RateLimiter.wait ⟨1, 60, [0]⟩ 1).1.request_times = [0] ++ [1] :=
  wait_blocks_exact_formula ⟨1, 60, [0]⟩ 1 0 []
    (evictOld_keep (by norm_num)) (by simp)
    (by intro x hx; simp at hx; simp [hx])

/-- C6: when after lazy eviction fewer than `max_requests` timestamps
remain, the call does not sleep and records its grant immediately. -/
theorem wait_no_block_under_quota (rl : RateLimiter) (now : ℚ)
    (h : (evictOld rl.time_frame now rl.request_times).length
          < rl.max_requests) :
    (rl.wait now).2 = 0 ∧
    (rl.wait now).1.request_times
      = evictOld rl.time_frame now rl.request_times ++ [now] :=
  ⟨sleepDuration_of_room h, rfl⟩

/-- Witness for `wait_no_block_under_quota`: quota 60, window 60, two
recent entries, call at time 5: no sleep, grant recorded at once. -/
theorem wait_no_block_under_quota_witness :
    (RateLimiter.wait ⟨60, 60, [1, 2]⟩ 5).2 = 0 ∧
    (RateLimiter.wait ⟨60, 60, [1, 2]⟩ 5).1.request_times
      = evictOld 60 5 [1, 2] ++ [5] :=
  wait_no_block_under_quota ⟨60, 60, [1, 2]⟩ 5 (by
    rw [show evictOld 60 5 [(1 : ℚ), 2] = [1, 2] from
      evictOld_keep (by norm_num)]
    simp)

/-! ## JSON documents

The documents the application manipulates are the results of Python's
`json.loads`.  The embedding restricts JSON numerals to integers (Python
parses fractional/exponent numerals to machine floats, which are outside
this embedding), keys to strings as in strict JSON, and models objects as
insertion-ordered key/value lists with unique keys maintained the way a
Python `dict` does (assignment replaces in place, new keys append). -/

inductive JsonValue where
  | null
  | bool (b : Bool)
  | num (n : ℤ)
  | str (s : List Char)
  | arr (items : List JsonValue)
  | obj (members : List (List Char × JsonValue))

/-- Structural induction for the nested inductive `JsonValue`. -/
theorem JsonValue.inductionOn (P : JsonValue → Prop)
    (hnull : P .null) (hbool : ∀ b, P (.bool b)) (hnum : ∀ n, P (.num n))
    (hstr : ∀ s, P (.str s))
    (harr : ∀ l, (∀ v ∈ l, P v) → P (.arr l))
    (hobj : ∀ l, (∀ p ∈ l, P p.2) → P (.obj l)) : ∀ v, P v := fun v =>
  match v with
  | .null => hnull
  | .bool b => hbool b
  | .num n => hnum n
  | .str s => hstr s
  | .arr l => harr l (fun e he =>
      JsonValue.inductionOn P hnull hbool hnum hstr harr hobj e)
  | .obj l => hobj l (fun p hp =>
      JsonValue.inductionOn P hnull hbool hnum hstr harr hobj p.2)
termination_by v => sizeOf v
decreasing_by
  · have := List.sizeOf_lt_of_mem he
    simp only [JsonValue.arr.sizeOf_spec]
    omega
  · have h1 := List.sizeOf_lt_of_mem hp
    have h2 : sizeOf p.2 < sizeOf p := by
      obtain ⟨a, b⟩ := p
      simp
    simp only [JsonValue.obj.sizeOf_spec]
    omega

/-! ### Serialisation: Python's `json.dumps`

`json.dumps(x)` (used at lines 157, 241, 272, 327, 338) with default
arguments: `ensure_ascii=True`, separators `", "`/`": "` without `indent`
and `","`/`": "` with `indent=k` (then items are placed on their own lines
indented by `k` spaces per level).  Escaping follows
`json.encoder.py_encode_basestring_ascii`: `\` and `"` and the chars
outside `0x20`–`0x7e` are escaped, control characters via shortcuts or
`\u00xx`, astral characters as surrogate pairs. -/

/-- One lowercase hex digit, as Python's `'%04x'` formatting emits. -/
def hexDigitChar (d : ℕ) : Char :=
  Char.ofNat (if d < 10 then 48 + d else 87 + d)

/-- Four lowercase hex digits of `n < 0x10000`. -/
def hex4 (n : ℕ) : List Char :=
  [hexDigitChar (n / 4096 % 16), hexDigitChar (n / 256 % 16),
   hexDigitChar (n / 16 % 16), hexDigitChar (n % 16)]

/-- `json.encoder.ESCAPE_DCT` / `ESCAPE_ASCII` for one character. -/
def escapeChar (c : Char) : List Char :=
  if c = '"' then ['\\', '"']
  else if c = '\\' then ['\\', '\\']
  else if c.toNat = 8 then ['\\', 'b']
  else if c.toNat = 12 then ['\\', 'f']
  else if c = '\n' then ['\\', 'n']
  else if c = '\r' then ['\\', 'r']
  else if c = '\t' then ['\\', 't']
  else if 0x20 ≤ c.toNat ∧ c.toNat ≤ 0x7e then [c]
  else if c.toNat < 0x10000 then '\\' :: 'u' :: hex4 c.toNat
  else
    ('\\' :: 'u' :: hex4 (0xd800 + (c.toNat - 0x10000) / 0x400)) ++
    ('\\' :: 'u' :: hex4 (0xdc00 + (c.toNat - 0x10000) % 0x400))

def escapeList : List Char → List Char
  | [] => []
  | c :: t => escapeChar c ++ escapeList t

/-- A serialised JSON string literal. -/
def serString (s : List Char) : List Char :=
  '"' :: escapeList s ++ ['"']

/-- Decimal digits of a positive number, most significant first, pushed
onto `acc`; the fuel (first argument) only needs to be at least the number
itself. -/
def natToCharsAux : ℕ → ℕ → List Char → List Char
  | 0, n, acc => Char.ofNat (48 + n % 10) :: acc
  | f + 1, n, acc =>
    if n < 10 then Char.ofNat (48 + n) :: acc
    else natToCharsAux f (n / 10) (Char.ofNat (48 + n % 10) :: acc)

/-- Decimal digits of a natural number, most significant first. -/
def natToChars (n : ℕ) : List Char := natToCharsAux n n []

/-- Python's `str` on an `int`. -/
def intStr : ℤ → List Char
  | .ofNat n => if n = 0 then ['0'] else natToChars n
  | .negSucc m => '-' :: natToChars (m + 1)

/-- The newline-plus-indentation `json.dumps` writes when `indent` is set
(nothing in compact mode). -/
def newlineIndent (ind : Option ℕ) (lvl : ℕ) : List Char :=
  match ind with
  | none => []
  | some k => '\n' :: List.replicate (k * lvl) ' '

/-- The item separator: `", "` compact, `",\n" + indent` with `indent`. -/
def itemSep (ind : Option ℕ) (lvl : ℕ) : List Char :=
  match ind with
  | none => [',', ' ']
  | some k => ',' :: '\n' :: List.replicate (k * lvl) ' '

mutual

/-- `json.dumps` of a value; `ind = none` is compact mode, `ind = some k`
is `indent=k`; `lvl` is the current nesting level. -/
def serValue (ind : Option ℕ) (lvl : ℕ) : JsonValue → List Char
  | .null => 'n' :: ['u', 'l', 'l']
  | .bool true => 't' :: ['r', 'u', 'e']
  | .bool false => 'f' :: ['a', 'l', 's', 'e']
  | .num n => intStr n
  | .str s => serString s
  | .arr [] => ['[', ']']
  | .arr (v :: t) =>
    '[' :: newlineIndent ind (lvl + 1) ++ serValue ind (lvl + 1) v ++
      serArrItems ind (lvl + 1) t ++ newlineIndent ind lvl ++ [']']
  | .obj [] => ['{', '}']
  | .obj (p :: t) =>
    '{' :: newlineIndent ind (lvl + 1) ++ serString p.1 ++ ':' :: ' ' ::
      serValue ind (lvl + 1) p.2 ++ serObjItems ind (lvl + 1) t ++
      newlineIndent ind lvl ++ ['}']

/-- The remaining array items, each preceded by the item separator. -/
def serArrItems (ind : Option ℕ) (lvl : ℕ) : List JsonValue → List Char
  | [] => []
  | v :: t => itemSep ind lvl ++ serValue ind lvl v ++ serArrItems ind lvl t

/-- The remaining object members, each preceded by the item separator. -/
def serObjItems (ind : Option ℕ) (lvl : ℕ) :
    List (List Char × JsonValue) → List Char
  | [] => []
  | p :: t =>
    itemSep ind lvl ++ serString p.1 ++ ':' :: ' ' ::
      serValue ind lvl p.2 ++ serObjItems ind lvl t

end

/-- `json.dumps(x)` with default arguments (lines 157, 327). -/
def jsonDumps (v : JsonValue) : List Char := serValue none 0 v

/-- `json.dumps(x, indent=2)` (lines 241, 272, 338). -/
def jsonDumpsIndent2 (v : JsonValue) : List Char := serValue (some 2) 0 v

/-! ### Parsing: Python's `json.loads`

`json.loads` (lines 88, 149, 239, 266) in strict mode: leading/trailing
JSON whitespace allowed, objects/arrays/strings/integers/true/false/null;
raw control characters in strings rejected, escapes `\" \\ \/ \b \f \n \r
\t \uXXXX` with surrogate-pair combination.  Divergences from Python kept
outside the embedding: fractional/exponent numerals (floats) and lone
surrogates (unrepresentable in `Char`) are rejected rather than parsed. -/

def isJsonWs (c : Char) : Bool :=
  c = ' ' || c = '\t' || c = '\n' || c = '\r'

def skipWs : List Char → List Char
  | [] => []
  | c :: r => if isJsonWs c then skipWs r else c :: r

/-- Value of one hex digit character (either case), if any. -/
def hexVal (c : Char) : Option ℕ :=
  if 48 ≤ c.toNat ∧ c.toNat ≤ 57 then some (c.toNat - 48)
  else if 97 ≤ c.toNat ∧ c.toNat ≤ 102 then some (c.toNat - 87)
  else if 65 ≤ c.toNat ∧ c.toNat ≤ 70 then some (c.toNat - 55)
  else none

/-- Build a `Char` from a scalar value, if valid. -/
def mkChar (n : ℕ) : Option Char :=
  if h : n.isValidChar then some (Char.ofNatAux n h) else none

def isDigitChar (c : Char) : Bool := 48 ≤ c.toNat && c.toNat ≤ 57

/-- Four hex digits, their combined value. -/
def parseHex4 : List Char → Option (ℕ × List Char)
  | h1 :: h2 :: h3 :: h4 :: rest =>
    match hexVal h1, hexVal h2, hexVal h3, hexVal h4 with
    | some a, some b, some c, some d =>
      some (4096 * a + 256 * b + 16 * c + d, rest)
    | _, _, _, _ => none
  | _ => none

/-- Recognise the two characters `\u` introducing the low half of a
surrogate pair. -/
def dropUStart : List Char → Option (List Char)
  | c1 :: c2 :: r => if c1 = '\\' ∧ c2 = 'u' then some r else none
  | _ => none

/-- Decode the hex digits after `\u`: one code unit, or a surrogate pair
combined as Python's scanner does.  A lone surrogate is rejected (Python
would keep it in the `str`; such a string is unrepresentable here and is
never produced by the serialiser). -/
def parseUEscape (rest : List Char) : Option (Char × List Char) :=
  (parseHex4 rest).bind fun p =>
    if 0xd800 ≤ p.1 ∧ p.1 ≤ 0xdbff then
      (dropUStart p.2).bind fun rest2 =>
        (parseHex4 rest2).bind fun q =>
          if 0xdc00 ≤ q.1 ∧ q.1 ≤ 0xdfff then
            (mkChar (0x10000 + 0x400 * (p.1 - 0xd800) + (q.1 - 0xdc00))).map
              fun ch => (ch, q.2)
          else none
    else
      (mkChar p.1).map fun ch => (ch, p.2)

/-- Prepend a decoded character to a string-parse result. -/
def consR (ch : Char) : Option (List Char × List Char) →
    Option (List Char × List Char)
  | some (s, r) => some (ch :: s, r)
  | none => none

/-- Parse the body of a string literal after the opening quote, returning
the decoded characters and the input after the closing quote.  Strict mode:
raw control characters are rejected; escapes are `\" \\ \/ \b \f \n \r \t`
and `\uXXXX` (`parseUEscape`).  The fuel is decremented once per decoded
character; the wrapper `parseStringBody` supplies the input length. -/
def parseStringBodyF : ℕ → List Char → Option (List Char × List Char)
  | 0, _ => none
  | _ + 1, [] => none
  | f + 1, c :: rest =>
    if c = '"' then some ([], rest)
    else if c = '\\' then
      match rest with
      | [] => none
      | e :: rest2 =>
        if e = '"' ∨ e = '\\' ∨ e = '/' then consR e (parseStringBodyF f rest2)
        else if e = 'b' then consR (Char.ofNat 8) (parseStringBodyF f rest2)
        else if e = 'f' then consR (Char.ofNat 12) (parseStringBodyF f rest2)
        else if e = 'n' then consR '\n' (parseStringBodyF f rest2)
        else if e = 'r' then consR '\r' (parseStringBodyF f rest2)
        else if e = 't' then consR '\t' (parseStringBodyF f rest2)
        else if e = 'u' then
          match parseUEscape rest2 with
          | some (ch, rest3) => consR ch (parseStringBodyF f rest3)
          | none => none
        else none
    else if c.toNat < 0x20 then none
    else consR c (parseStringBodyF f rest)

def parseStringBody (l : List Char) : Option (List Char × List Char) :=
  parseStringBodyF (l.length + 1) l

/-- Python `dict` assignment on an insertion-ordered association list:
replace in place if the key exists, else append. -/
def insertKey : List (List Char × JsonValue) → List Char → JsonValue →
    List (List Char × JsonValue)
  | [], k, v => [(k, v)]
  | p :: t, k, v => if p.1 = k then (k, v) :: t else p :: insertKey t k v

/-- Greedily consume decimal digits, extending the accumulator. -/
def parseDigits : List Char → ℕ → ℕ × List Char
  | [], acc => (acc, [])
  | c :: r, acc =>
    if isDigitChar c then parseDigits r (10 * acc + (c.toNat - 48))
    else (acc, c :: r)

mutual

/-- Parse one JSON value (after skipping leading whitespace).  The fuel
bounds the nesting recursion; `jsonLoads` supplies enough for any input of
the given length. -/
def parseValue : ℕ → List Char → Option (JsonValue × List Char)
  | 0, _ => none
  | f + 1, s =>
    match skipWs s with
    | [] => none
    | c :: r =>
      if c = 'n' then
        match r with
        | 'u' :: 'l' :: 'l' :: r2 => some (.null, r2)
        | _ => none
      else if c = 't' then
        match r with
        | 'r' :: 'u' :: 'e' :: r2 => some (.bool true, r2)
        | _ => none
      else if c = 'f' then
        match r with
        | 'a' :: 'l' :: 's' :: 'e' :: r2 => some (.bool false, r2)
        | _ => none
      else if c = '"' then
        match parseStringBody r with
        | some (s1, r1) => some (.str s1, r1)
        | none => none
      else if c = '-' then
        match r with
        | d :: r2 =>
          if d = '0' then some (.num 0, r2)
          else if isDigitChar d then
            let p := parseDigits r2 (d.toNat - 48)
            some (.num (-(p.1 : ℤ)), p.2)
          else none
        | [] => none
      else if c = '0' then some (.num 0, r)
      else if isDigitChar c then
        let p := parseDigits r (c.toNat - 48)
        some (.num (p.1 : ℤ), p.2)
      else if c = '[' then
        match skipWs r with
        | [] => none
        | c2 :: r2 =>
          if c2 = ']' then some (.arr [], r2)
          else parseElems f (c2 :: r2) []
      else if c = '{' then
        match skipWs r with
        | [] => none
        | c2 :: r2 =>
          if c2 = '}' then some (.obj [], r2)
          else parseMembers f (c2 :: r2) []
      else none

/-- Parse the elements of a non-empty array (positioned at the first
element). -/
def parseElems : ℕ → List Char → List JsonValue →
    Option (JsonValue × List Char)
  | 0, _, _ => none
  | f + 1, s, acc =>
    match parseValue f s with
    | some (v, r) =>
      match skipWs r with
      | [] => none
      | c2 :: r2 =>
        if c2 = ',' then parseElems f r2 (acc ++ [v])
        else if c2 = ']' then some (.arr (acc ++ [v]), r2)
        else none
    | none => none

/-- Parse the members of a non-empty object (positioned at the first key).
Python builds the result as a `dict`, so a repeated key replaces the value
in place (`insertKey`). -/
def parseMembers : ℕ → List Char → List (List Char × JsonValue) →
    Option (JsonValue × List Char)
  | 0, _, _ => none
  | f + 1, s, acc =>
    match s with
    | [] => none
    | c :: r =>
      if c = '"' then
        match parseStringBody r with
        | some (k, r1) =>
          match skipWs r1 with
          | [] => none
          | c2 :: r2 =>
            if c2 = ':' then
              match parseValue f r2 with
              | some (v, r3) =>
                match skipWs r3 with
                | [] => none
                | c3 :: r4 =>
                  if c3 = ',' then
                    parseMembers f (skipWs r4) (insertKey acc k v)
                  else if c3 = '}' then
                    some (.obj (insertKey acc k v), r4)
                  else none
              | none => none
            else none
        | none => none
      else none

end

/-- `json.loads`: parse one document, allowing surrounding whitespace,
rejecting trailing data (Python's "Extra data" error is modelled as
`none`). -/
def jsonLoads (s : List Char) : Option JsonValue :=
  match parseValue (s.length + 1) s with
  | some (v, r) => if skipWs r = [] then some v else none
  | none => none

/-! ### Character-level helper lemmas -/

theorem char_ext_toNat {a b : Char} (h : a.toNat = b.toNat) : a = b :=
  Char.ext (UInt32.ext h)

theorem char_ofNat_toNat {n : ℕ} (h : n.isValidChar) :
    (Char.ofNat n).toNat = n := by
  rw [Char.ofNat, dif_pos h]
  rfl

theorem char_ofNat_eq {c : Char} {n : ℕ} (hn : n.isValidChar)
    (h : c.toNat = n) : Char.ofNat n = c := by
  apply char_ext_toNat
  rw [char_ofNat_toNat hn, h]

theorem mkChar_of_toNat (c : Char) : mkChar c.toNat = some c := by
  have h : c.toNat.isValidChar := c.valid
  rw [mkChar, dif_pos h]
  exact congrArg some (char_ext_toNat rfl)

theorem valid_of_lt {n : ℕ} (h : n < 0xd800) : n.isValidChar := Or.inl h

/-- Scalar values of characters: below the surrogate range or above it. -/
theorem char_toNat_valid (c : Char) :
    c.toNat < 0xd800 ∨ (0xdfff < c.toNat ∧ c.toNat < 0x110000) := c.valid

theorem hexVal_hexDigitChar {d : ℕ} (h : d < 16) :
    hexVal (hexDigitChar d) = some d := by
  interval_cases d <;> decide

/-! ### Whitespace lemmas -/

theorem skipWs_cons_ws {c : Char} {s : List Char} (h : isJsonWs c = true) :
    skipWs (c :: s) = skipWs s := by
  rw [skipWs, if_pos h]

theorem skipWs_cons_not_ws {c : Char} {s : List Char}
    (h : isJsonWs c = false) : skipWs (c :: s) = c :: s := by
  rw [skipWs, if_neg (by simp [h])]

theorem skipWs_ws_append {ws : List Char} {s : List Char}
    (h : ∀ c ∈ ws, isJsonWs c = true) :
    skipWs (ws ++ s) = skipWs s := by
  induction ws with
  | nil => rfl
  | cons c t ih =>
    rw [List.cons_append, skipWs_cons_ws (h c (by simp))]
    exact ih (fun x hx => h x (by simp [hx]))

theorem isJsonWs_space : isJsonWs ' ' = true := by decide

theorem isJsonWs_newline : isJsonWs '\n' = true := by decide

theorem skipWs_newlineIndent (ind : Option ℕ) (lvl : ℕ) (s : List Char) :
    skipWs (newlineIndent ind lvl ++ s) = skipWs s := by
  cases ind with
  | none => rfl
  | some k =>
    apply skipWs_ws_append
    intro c hc
    simp only [newlineIndent, List.mem_cons] at hc
    rcases hc with rfl | hc
    · decide
    · rw [List.eq_of_mem_replicate hc]
      decide

/-! ### String literal round trip -/

theorem parseHex4_hex4 {x : ℕ} (hlt : x < 65536) (rest : List Char) :
    parseHex4 (hex4 x ++ rest) = some (x, rest) := by
  have e1 : hexVal (hexDigitChar (x / 4096 % 16)) = some (x / 4096 % 16) :=
    hexVal_hexDigitChar (Nat.mod_lt _ (by norm_num))
  have e2 : hexVal (hexDigitChar (x / 256 % 16)) = some (x / 256 % 16) :=
    hexVal_hexDigitChar (Nat.mod_lt _ (by norm_num))
  have e3 : hexVal (hexDigitChar (x / 16 % 16)) = some (x / 16 % 16) :=
    hexVal_hexDigitChar (Nat.mod_lt _ (by norm_num))
  have e4 : hexVal (hexDigitChar (x % 16)) = some (x % 16) :=
    hexVal_hexDigitChar (Nat.mod_lt _ (by norm_num))
  have hx : 4096 * (x / 4096 % 16) + 256 * (x / 256 % 16) +
      16 * (x / 16 % 16) + x % 16 = x := by omega
  simp only [hex4, List.cons_append, List.nil_append, parseHex4,
    e1, e2, e3, e4, hx]

theorem parseUEscape_single {x : ℕ} {ch : Char} (hlt : x < 65536)
    (hns : ¬ (0xd800 ≤ x ∧ x ≤ 0xdbff)) (hch : mkChar x = some ch)
    (rest : List Char) :
    parseUEscape (hex4 x ++ rest) = some (ch, rest) := by
  rw [parseUEscape, parseHex4_hex4 hlt, Option.some_bind]
  simp only [if_neg hns, hch, Option.map_some']

theorem parseUEscape_pair {x : ℕ} {ch : Char} (hx : 0x10000 ≤ x)
    (hlt : x ≤ 0x10ffff) (hch : mkChar x = some ch) (rest : List Char) :
    parseUEscape (hex4 (0xd800 + (x - 0x10000) / 0x400) ++
      ('\\' :: 'u' :: (hex4 (0xdc00 + (x - 0x10000) % 0x400) ++ rest))) =
      some (ch, rest) := by
  have hq : (x - 0x10000) / 0x400 < 0x400 := by omega
  have hsur : 0xd800 ≤ 0xd800 + (x - 0x10000) / 0x400 ∧
      0xd800 + (x - 0x10000) / 0x400 ≤ 0xdbff := by omega
  have hlow : 0xdc00 ≤ 0xdc00 + (x - 0x10000) % 0x400 ∧
      0xdc00 + (x - 0x10000) % 0x400 ≤ 0xdfff := by omega
  have harg : 0x10000 +
      0x400 * (0xd800 + (x - 0x10000) / 0x400 - 0xd800) +
      (0xdc00 + (x - 0x10000) % 0x400 - 0xdc00) = x := by omega
  have hdrop : dropUStart ('\\' :: 'u' ::
      (hex4 (0xdc00 + (x - 0x10000) % 0x400) ++ rest)) =
      some (hex4 (0xdc00 + (x - 0x10000) % 0x400) ++ rest) := rfl
  rw [parseUEscape, parseHex4_hex4 (show 0xd800 +
    (x - 0x10000) / 0x400 < 65536 by omega), Option.some_bind]
  rw [if_pos hsur]
  rw [hdrop]
  rw [Option.some_bind, parseHex4_hex4 (show 0xdc00 +
    (x - 0x10000) % 0x400 < 65536 by omega)]
  rw [Option.some_bind]
  rw [if_pos hlow]
  rw [harg, hch]
  rw [Option.map_some']

theorem psbf_quote (f : ℕ) (rest : List Char) :
    parseStringBodyF (f + 1) ('"' :: rest) = some ([], rest) := by
  simp [parseStringBodyF]

theorem psbf_plain {c : Char} (h1 : ¬ c = '"') (h2 : ¬ c = '\\')
    (h3 : ¬ c.toNat < 0x20) (f : ℕ) (rest : List Char) :
    parseStringBodyF (f + 1) (c :: rest) =
      consR c (parseStringBodyF f rest) := by
  simp only [parseStringBodyF, if_neg h1, if_neg h2, if_neg h3]

theorem psbf_esc_simple {e : Char} (h : e = '"' ∨ e = '\\' ∨ e = '/')
    (f : ℕ) (rest2 : List Char) :
    parseStringBodyF (f + 1) ('\\' :: e :: rest2) =
      consR e (parseStringBodyF f rest2) := by
  simp only [parseStringBodyF]
  simp [h]

theorem psbf_esc_b (f : ℕ) (rest2 : List Char) :
    parseStringBodyF (f + 1) ('\\' :: 'b' :: rest2) =
      consR (Char.ofNat 8) (parseStringBodyF f rest2) := by
  simp [parseStringBodyF]

theorem psbf_esc_f (f : ℕ) (rest2 : List Char) :
    parseStringBodyF (f + 1) ('\\' :: 'f' :: rest2) =
      consR (Char.ofNat 12) (parseStringBodyF f rest2) := by
  simp [parseStringBodyF]

theorem psbf_esc_n (f : ℕ) (rest2 : List Char) :
    parseStringBodyF (f + 1) ('\\' :: 'n' :: rest2) =
      consR '\n' (parseStringBodyF f rest2) := by
  simp [parseStringBodyF]

theorem psbf_esc_r (f : ℕ) (rest2 : List Char) :
    parseStringBodyF (f + 1) ('\\' :: 'r' :: rest2) =
      consR '\r' (parseStringBodyF f rest2) := by
  simp [parseStringBodyF]

theorem psbf_esc_t (f : ℕ) (rest2 : List Char) :
    parseStringBodyF (f + 1) ('\\' :: 't' :: rest2) =
      consR '\t' (parseStringBodyF f rest2) := by
  simp [parseStringBodyF]

theorem psbf_esc_u (f : ℕ) (rest2 : List Char) :
    parseStringBodyF (f + 1) ('\\' :: 'u' :: rest2) =
      match parseUEscape rest2 with
      | some (ch, rest3) => consR ch (parseStringBodyF f rest3)
      | none => none := by
  simp [parseStringBodyF]

theorem escapeChar_length_pos (c : Char) : 1 ≤ (escapeChar c).length := by
  rw [escapeChar]
  split_ifs <;> simp [hex4]

theorem escapeList_length_ge (s : List Char) :
    s.length ≤ (escapeList s).length := by
  induction s with
  | nil => simp [escapeList]
  | cons c t ih =>
    have := escapeChar_length_pos c
    simp only [escapeList, List.length_append, List.length_cons]
    omega

/-- The serialised body of a string literal parses back to the original
characters, leaving the input after the closing quote, whenever the fuel
exceeds the number of characters. -/
theorem parseStringBodyF_escape (s : List Char) :
    ∀ (f : ℕ) (rest : List Char), s.length < f →
      parseStringBodyF f (escapeList s ++ '"' :: rest) = some (s, rest) := by
  induction s with
  | nil =>
    intro f rest hf
    obtain ⟨f', rfl⟩ : ∃ f', f = f' + 1 := ⟨f - 1, by omega⟩
    exact psbf_quote f' rest
  | cons c t ih =>
    intro f rest hf
    obtain ⟨f', rfl⟩ : ∃ f', f = f' + 1 := ⟨f - 1, by omega⟩
    have ihf : parseStringBodyF f' (escapeList t ++ '"' :: rest)
        = some (t, rest) := by
      apply ih
      simp only [List.length_cons] at hf
      omega
    show parseStringBodyF (f' + 1)
      ((escapeChar c ++ escapeList t) ++ '"' :: rest) = _
    rw [List.append_assoc, escapeChar]
    by_cases h1 : c = '"'
    · subst h1
      rw [if_pos rfl]
      simp only [List.cons_append, List.nil_append]
      rw [psbf_esc_simple (Or.inl rfl), ihf]
      rfl
    · rw [if_neg h1]
      by_cases h2 : c = '\\'
      · subst h2
        rw [if_pos rfl]
        simp only [List.cons_append, List.nil_append]
        rw [psbf_esc_simple (Or.inr (Or.inl rfl)), ihf]
        rfl
      · rw [if_neg h2]
        by_cases h3 : c.toNat = 8
        · rw [if_pos h3]
          simp only [List.cons_append, List.nil_append]
          rw [psbf_esc_b, ihf, char_ofNat_eq (valid_of_lt (by omega)) h3]
          rfl
        · rw [if_neg h3]
          by_cases h4 : c.toNat = 12
          · rw [if_pos h4]
            simp only [List.cons_append, List.nil_append]
            rw [psbf_esc_f, ihf, char_ofNat_eq (valid_of_lt (by omega)) h4]
            rfl
          · rw [if_neg h4]
            by_cases h5 : c = '\n'
            · subst h5
              rw [if_pos rfl]
              simp only [List.cons_append, List.nil_append]
              rw [psbf_esc_n, ihf]
              rfl
            · rw [if_neg h5]
              by_cases h6 : c = '\r'
              · subst h6
                rw [if_pos rfl]
                simp only [List.cons_append, List.nil_append]
                rw [psbf_esc_r, ihf]
                rfl
              · rw [if_neg h6]
                by_cases h7 : c = '\t'
                · subst h7
                  rw [if_pos rfl]
                  simp only [List.cons_append, List.nil_append]
                  rw [psbf_esc_t, ihf]
                  rfl
                · rw [if_neg h7]
                  by_cases h8 : 0x20 ≤ c.toNat ∧ c.toNat ≤ 0x7e
                  · rw [if_pos h8]
                    simp only [List.cons_append, List.nil_append]
                    rw [psbf_plain h1 h2 (by omega), ihf]
                    rfl
                  · rw [if_neg h8]
                    by_cases h9 : c.toNat < 0x10000
                    · rw [if_pos h9]
                      have hns : ¬ (0xd800 ≤ c.toNat ∧ c.toNat ≤ 0xdbff) := by
                        rcases char_toNat_valid c with h | h <;> omega
                      simp only [List.cons_append, List.nil_append]
                      rw [psbf_esc_u,
                        parseUEscape_single h9 hns (mkChar_of_toNat c)]
                      show consR c (parseStringBodyF f'
                        (escapeList t ++ '"' :: rest)) = _
                      rw [ihf]
                      rfl
                    · rw [if_neg h9]
                      have hup : c.toNat ≤ 0x10ffff := by
                        rcases char_toNat_valid c with h | h <;> omega
                      simp only [List.cons_append, List.nil_append,
                        List.append_assoc]
                      rw [psbf_esc_u,
                        parseUEscape_pair (by omega) hup (mkChar_of_toNat c)]
                      show consR c (parseStringBodyF f'
                        (escapeList t ++ '"' :: rest)) = _
                      rw [ihf]
                      rfl

/-- `parseStringBody` (with its own input length as fuel) decodes any
serialised string body. -/
theorem parseStringBody_escape (s rest : List Char) :
    parseStringBody (escapeList s ++ '"' :: rest) = some (s, rest) := by
  have hlen := escapeList_length_ge s
  apply parseStringBodyF_escape
  simp only [List.length_append, List.length_cons]
  omega

/-! ### Decimal numeral round trip -/

/-- The input directly after a serialised numeral must not continue with a
digit (inside a document it continues with a separator, a bracket or
whitespace). -/
def DelimOk : List Char → Prop
  | [] => True
  | c :: _ => isDigitChar c = false

theorem char_ne_of_toNat_ne {a b : Char} (h : ¬ a.toNat = b.toNat) :
    ¬ a = b := fun e => h (congrArg Char.toNat e)

theorem isJsonWs_false_of_range {c : Char}
    (h : 14 ≤ c.toNat ∧ c.toNat ≠ 32) : isJsonWs c = false := by
  have h1 : ¬ c = ' ' := char_ne_of_toNat_ne
    (by rw [show (' ').toNat = 32 from rfl]; omega)
  have h2 : ¬ c = '\t' := char_ne_of_toNat_ne
    (by rw [show ('\t').toNat = 9 from rfl]; omega)
  have h3 : ¬ c = '\n' := char_ne_of_toNat_ne
    (by rw [show ('\n').toNat = 10 from rfl]; omega)
  have h4 : ¬ c = '\r' := char_ne_of_toNat_ne
    (by rw [show ('\r').toNat = 13 from rfl]; omega)
  simp [isJsonWs, h1, h2, h3, h4]

/-- The decimal digit characters of `n`, most significant first, through
Mathlib's `Nat.digits` (used for proofs; `natToChars` is the executable
form). -/
def dstr (n : ℕ) : List Char :=
  (Nat.digits 10 n).reverse.map (fun d => Char.ofNat (48 + d))

theorem natToCharsAux_eq (f : ℕ) : ∀ n acc, 0 < n → n ≤ f →
    natToCharsAux f n acc = dstr n ++ acc := by
  induction f with
  | zero => intro n acc hn hf; omega
  | succ f ih =>
    intro n acc hn hf
    by_cases h10 : n < 10
    · rw [natToCharsAux, if_pos h10]
      rw [dstr, Nat.digits_def' (by norm_num) hn,
        Nat.mod_eq_of_lt h10, Nat.div_eq_of_lt h10]
      simp
    · rw [natToCharsAux, if_neg h10]
      have hd : 0 < n / 10 := Nat.div_pos (by omega) (by norm_num)
      have hf' : n / 10 ≤ f := by
        have := Nat.div_lt_self hn (by norm_num : (1 : ℕ) < 10)
        omega
      rw [ih (n / 10) _ hd hf']
      rw [dstr, dstr, Nat.digits_def' (by norm_num) hn]
      simp

theorem natToChars_eq {n : ℕ} (h : 0 < n) : natToChars n = dstr n := by
  rw [natToChars, natToCharsAux_eq n n [] h le_rfl, List.append_nil]

theorem dstr_digit_char {n : ℕ} {c : Char} (hc : c ∈ dstr n) :
    c.toNat < 58 ∧ 48 ≤ c.toNat := by
  rw [dstr] at hc
  simp only [List.mem_map, List.mem_reverse] at hc
  obtain ⟨d, hd, rfl⟩ := hc
  have hlt : d < 10 := Nat.digits_lt_base (by norm_num) hd
  rw [char_ofNat_toNat (valid_of_lt (by omega))]
  omega

theorem dstr_isDigit {n : ℕ} {c : Char} (hc : c ∈ dstr n) :
    isDigitChar c = true := by
  have := dstr_digit_char hc
  simp [isDigitChar]
  omega

theorem parseDigits_digits (ds : List Char)
    (hds : ∀ c ∈ ds, isDigitChar c = true) :
    ∀ (rest : List Char) (acc : ℕ), DelimOk rest →
      parseDigits (ds ++ rest) acc =
        (ds.foldl (fun a c => 10 * a + (c.toNat - 48)) acc, rest) := by
  induction ds with
  | nil =>
    intro rest acc hrest
    cases rest with
    | nil => rfl
    | cons c r =>
      have hc : isDigitChar c = false := hrest
      simp only [List.nil_append, List.foldl_nil]
      rw [parseDigits, if_neg (by simp [hc])]
  | cons c ds ih =>
    intro rest acc hrest
    rw [List.cons_append, parseDigits, if_pos (hds c (by simp)),
      ih (fun x hx => hds x (by simp [hx])) rest _ hrest, List.foldl_cons]

theorem foldl_digits (L : List ℕ) (hL : ∀ d ∈ L, d < 10) :
    ∀ a : ℕ,
      ((L.reverse.map (fun d => Char.ofNat (48 + d))).foldl
        (fun x c => 10 * x + (c.toNat - 48)) a)
      = a * 10 ^ L.length + Nat.ofDigits 10 L := by
  induction L with
  | nil => intro a; simp
  | cons d T ih =>
    intro a
    have hd : d < 10 := hL d (by simp)
    rw [List.reverse_cons, List.map_append, List.foldl_append,
      ih (fun x hx => hL x (by simp [hx]))]
    simp only [List.map_cons, List.map_nil, List.foldl_cons, List.foldl_nil]
    rw [char_ofNat_toNat (valid_of_lt (by omega))]
    rw [List.length_cons, Nat.ofDigits_cons]
    ring_nf
    omega

theorem foldl_dstr (m : ℕ) :
    (dstr m).foldl (fun a c => 10 * a + (c.toNat - 48)) 0 = m := by
  rw [dstr, foldl_digits _ (fun d hd => Nat.digits_lt_base (by norm_num) hd)]
  rw [Nat.ofDigits_digits]
  ring

theorem parseDigits_dstr {m : ℕ} {rest : List Char} (hrest : DelimOk rest)
    {c : Char} {t : List Char} (hsplit : dstr m = c :: t) :
    parseDigits (t ++ rest) (c.toNat - 48) = (m, rest) := by
  have hds : ∀ x ∈ t, isDigitChar x = true := fun x hx =>
    dstr_isDigit (by rw [hsplit]; simp [hx])
  rw [parseDigits_digits t hds rest _ hrest]
  have := foldl_dstr m
  rw [hsplit, List.foldl_cons] at this
  rw [show 10 * 0 + (c.toNat - 48) = c.toNat - 48 by omega] at this
  rw [this]

/-- The head digit of a positive numeral is a nonzero digit. -/
theorem dstr_head {n : ℕ} (h : 0 < n) :
    ∃ c t, dstr n = c :: t ∧ 49 ≤ c.toNat ∧ c.toNat ≤ 57 := by
  have hne : Nat.digits 10 n ≠ [] :=
    Nat.digits_ne_nil_iff_ne_zero.mpr (by omega)
  have hrne : (Nat.digits 10 n).reverse ≠ [] := by simpa using hne
  obtain ⟨d, L, hL⟩ := List.exists_cons_of_ne_nil hrne
  have hrev : Nat.digits 10 n = L.reverse ++ [d] := by
    rw [← List.reverse_reverse (Nat.digits 10 n), hL, List.reverse_cons]
  have hdm : d ∈ Nat.digits 10 n := by rw [hrev]; simp
  have hlt : d < 10 := Nat.digits_lt_base (by norm_num) hdm
  have hgl : (Nat.digits 10 n).getLast? = some d := by
    rw [hrev]
    exact List.getLast?_concat _
  have hgl2 : (Nat.digits 10 n).getLast? =
      some ((Nat.digits 10 n).getLast hne) := List.getLast?_eq_getLast _ hne
  have hdval : (Nat.digits 10 n).getLast hne = d :=
    Option.some_injective _ (hgl2.symm.trans hgl)
  have hne0 : d ≠ 0 := hdval ▸ Nat.getLast_digit_ne_zero 10 (by omega)
  refine ⟨Char.ofNat (48 + d), L.map (fun x => Char.ofNat (48 + x)), ?_, ?_, ?_⟩
  · rw [dstr, hL, List.map_cons]
  · rw [char_ofNat_toNat (valid_of_lt (by omega))]
    omega
  · rw [char_ofNat_toNat (valid_of_lt (by omega))]
    omega

/-! ### Whitespace and delimiter facts about the serialiser's separators -/

/-- The whitespace an item separator writes after its comma. -/
def sepTail (ind : Option ℕ) (lvl : ℕ) : List Char :=
  match ind with
  | none => [' ']
  | some k => '\n' :: List.replicate (k * lvl) ' '

theorem itemSep_eq (ind : Option ℕ) (lvl : ℕ) :
    itemSep ind lvl = ',' :: sepTail ind lvl := by
  cases ind <;> rfl

theorem sepTail_ws (ind : Option ℕ) (lvl : ℕ) :
    ∀ c ∈ sepTail ind lvl, isJsonWs c = true := by
  intro c hc
  cases ind with
  | none =>
    simp only [sepTail, List.mem_singleton] at hc
    subst hc
    decide
  | some k =>
    simp only [sepTail, List.mem_cons] at hc
    rcases hc with rfl | hc
    · decide
    · rw [List.eq_of_mem_replicate hc]
      decide

theorem newlineIndent_ws (ind : Option ℕ) (lvl : ℕ) :
    ∀ c ∈ newlineIndent ind lvl, isJsonWs c = true := by
  intro c hc
  cases ind with
  | none => simp [newlineIndent] at hc
  | some k =>
    simp only [newlineIndent, List.mem_cons] at hc
    rcases hc with rfl | hc
    · decide
    · rw [List.eq_of_mem_replicate hc]
      decide

theorem delimOk_cons {c : Char} (h : isDigitChar c = false)
    (r : List Char) : DelimOk (c :: r) := h

theorem delimOk_itemSep (ind : Option ℕ) (lvl : ℕ) (r : List Char) :
    DelimOk (itemSep ind lvl ++ r) := by
  rw [itemSep_eq]
  exact delimOk_cons (by decide) _

theorem delimOk_nl_cons (ind : Option ℕ) (lvl : ℕ) {c : Char}
    (hc : isDigitChar c = false) (r : List Char) :
    DelimOk (newlineIndent ind lvl ++ c :: r) := by
  cases ind with
  | none => exact delimOk_cons hc r
  | some k => exact delimOk_cons (by decide) _

/-! ### One-step lemmas for `parseValue` -/

theorem parseValue_ws {ws : List Char} (h : ∀ c ∈ ws, isJsonWs c = true)
    (f : ℕ) (s : List Char) :
    parseValue (f + 1) (ws ++ s) = parseValue (f + 1) s := by
  simp only [parseValue, skipWs_ws_append h]

theorem pvNull (f : ℕ) (r : List Char) :
    parseValue (f + 1) ('n' :: 'u' :: 'l' :: 'l' :: r) =
      some (.null, r) := by
  have h := skipWs_cons_not_ws
    (c := 'n') (s := 'u' :: 'l' :: 'l' :: r) (by decide)
  simp only [parseValue, h]
  simp

theorem pvTrue (f : ℕ) (r : List Char) :
    parseValue (f + 1) ('t' :: 'r' :: 'u' :: 'e' :: r) =
      some (.bool true, r) := by
  have h := skipWs_cons_not_ws
    (c := 't') (s := 'r' :: 'u' :: 'e' :: r) (by decide)
  simp only [parseValue, h]
  simp

theorem pvFalse (f : ℕ) (r : List Char) :
    parseValue (f + 1) ('f' :: 'a' :: 'l' :: 's' :: 'e' :: r) =
      some (.bool false, r) := by
  have h := skipWs_cons_not_ws
    (c := 'f') (s := 'a' :: 'l' :: 's' :: 'e' :: r) (by decide)
  simp only [parseValue, h]
  simp

theorem pvStr {r s1 r1 : List Char}
    (hstr : parseStringBody r = some (s1, r1)) (f : ℕ) :
    parseValue (f + 1) ('"' :: r) = some (.str s1, r1) := by
  have h := skipWs_cons_not_ws (c := '"') (s := r) (by decide)
  simp only [parseValue, h]
  simp [hstr]

theorem pvNumZero (f : ℕ) (r : List Char) :
    parseValue (f + 1) ('0' :: r) = some (.num 0, r) := by
  have h := skipWs_cons_not_ws (c := '0') (s := r) (by decide)
  simp only [parseValue, h]
  simp

theorem pvNumPos {c : Char} (h49 : 49 ≤ c.toNat) (h57 : c.toNat ≤ 57)
    (f : ℕ) (r : List Char) :
    parseValue (f + 1) (c :: r) =
      some (.num ((parseDigits r (c.toNat - 48)).1 : ℤ),
        (parseDigits r (c.toNat - 48)).2) := by
  have hws := skipWs_cons_not_ws (c := c) (s := r)
    (isJsonWs_false_of_range (by omega))
  have hn : ¬ c = 'n' := char_ne_of_toNat_ne
    (by rw [show ('n').toNat = 110 from rfl]; omega)
  have ht : ¬ c = 't' := char_ne_of_toNat_ne
    (by rw [show ('t').toNat = 116 from rfl]; omega)
  have hf : ¬ c = 'f' := char_ne_of_toNat_ne
    (by rw [show ('f').toNat = 102 from rfl]; omega)
  have hq : ¬ c = '"' := char_ne_of_toNat_ne
    (by rw [show ('"').toNat = 34 from rfl]; omega)
  have hm : ¬ c = '-' := char_ne_of_toNat_ne
    (by rw [show ('-').toNat = 45 from rfl]; omega)
  have h0 : ¬ c = '0' := char_ne_of_toNat_ne
    (by rw [show ('0').toNat = 48 from rfl]; omega)
  have hdig : isDigitChar c = true := by
    simp only [isDigitChar, Bool.and_eq_true, decide_eq_true_eq]
    omega
  simp only [parseValue, hws]
  simp [hn, ht, hf, hq, hm, h0, hdig]

theorem pvNumNeg {c : Char} (h49 : 49 ≤ c.toNat) (h57 : c.toNat ≤ 57)
    (f : ℕ) (r : List Char) :
    parseValue (f + 1) ('-' :: c :: r) =
      some (.num (-((parseDigits r (c.toNat - 48)).1 : ℤ)),
        (parseDigits r (c.toNat - 48)).2) := by
  have hws := skipWs_cons_not_ws (c := '-') (s := c :: r) (by decide)
  have h0 : ¬ c = '0' := char_ne_of_toNat_ne
    (by rw [show ('0').toNat = 48 from rfl]; omega)
  have hdig : isDigitChar c = true := by
    simp only [isDigitChar, Bool.and_eq_true, decide_eq_true_eq]
    omega
  simp only [parseValue, hws]
  simp [h0, hdig]

theorem pvArrNil (f : ℕ) (r : List Char) :
    parseValue (f + 1) ('[' :: ']' :: r) = some (.arr [], r) := by
  have hws := skipWs_cons_not_ws (c := '[') (s := ']' :: r) (by decide)
  simp only [parseValue, hws]
  simp [skipWs_cons_not_ws (c := ']') (s := r) (by decide), isDigitChar]

theorem pvArrCons {r : List Char} {c2 : Char} {r2 : List Char}
    (hskip : skipWs r = c2 :: r2) (hne : ¬ c2 = ']') (f : ℕ) :
    parseValue (f + 1) ('[' :: r) = parseElems f (c2 :: r2) [] := by
  have hws := skipWs_cons_not_ws (c := '[') (s := r) (by decide)
  simp only [parseValue, hws]
  simp [hskip, hne, isDigitChar]

theorem pvObjNil (f : ℕ) (r : List Char) :
    parseValue (f + 1) ('{' :: '}' :: r) = some (.obj [], r) := by
  have hws := skipWs_cons_not_ws (c := '{') (s := '}' :: r) (by decide)
  simp only [parseValue, hws]
  simp [skipWs_cons_not_ws (c := '}') (s := r) (by decide), isDigitChar]

theorem pvObjCons {r : List Char} {c2 : Char} {r2 : List Char}
    (hskip : skipWs r = c2 :: r2) (hne : ¬ c2 = '}') (f : ℕ) :
    parseValue (f + 1) ('{' :: r) = parseMembers f (c2 :: r2) [] := by
  have hws := skipWs_cons_not_ws (c := '{') (s := r) (by decide)
  simp only [parseValue, hws]
  simp [hskip, hne, isDigitChar]

/-! ### One-step lemmas for `parseElems` and `parseMembers` -/

theorem peComma {f : ℕ} {s : List Char} {v : JsonValue} {r r2 : List Char}
    (hv : parseValue f s = some (v, r)) (hskip : skipWs r = ',' :: r2)
    (acc : List JsonValue) :
    parseElems (f + 1) s acc = parseElems f r2 (acc ++ [v]) := by
  simp only [parseElems, hv, hskip]
  simp

theorem peClose {f : ℕ} {s : List Char} {v : JsonValue} {r r2 : List Char}
    (hv : parseValue f s = some (v, r)) (hskip : skipWs r = ']' :: r2)
    (acc : List JsonValue) :
    parseElems (f + 1) s acc = some (.arr (acc ++ [v]), r2) := by
  simp only [parseElems, hv, hskip]
  simp

theorem pmComma {f : ℕ} {r k r1 : List Char} {v : JsonValue}
    {r2 r3 r4 : List Char}
    (hk : parseStringBody r = some (k, r1)) (hc : skipWs r1 = ':' :: r2)
    (hv : parseValue f r2 = some (v, r3)) (hsep : skipWs r3 = ',' :: r4)
    (acc : List (List Char × JsonValue)) :
    parseMembers (f + 1) ('"' :: r) acc =
      parseMembers f (skipWs r4) (insertKey acc k v) := by
  simp only [parseMembers, hk, hc, hv, hsep]
  simp

theorem pmClose {f : ℕ} {r k r1 : List Char} {v : JsonValue}
    {r2 r3 r4 : List Char}
    (hk : parseStringBody r = some (k, r1)) (hc : skipWs r1 = ':' :: r2)
    (hv : parseValue f r2 = some (v, r3)) (hsep : skipWs r3 = '}' :: r4)
    (acc : List (List Char × JsonValue)) :
    parseMembers (f + 1) ('"' :: r) acc =
      some (.obj (insertKey acc k v), r4) := by
  simp only [parseMembers, hk, hc, hv, hsep]
  simp

/-! ### The first character of a serialised value -/

theorem serValue_head (ind : Option ℕ) (lvl : ℕ) (v : JsonValue) :
    ∃ c cs, serValue ind lvl v = c :: cs ∧ isJsonWs c = false ∧
      ¬ c = ']' ∧ ¬ c = '}' := by
  cases v with
  | null => refine ⟨'n', _, rfl, ?_, ?_, ?_⟩ <;> decide
  | bool b =>
    cases b with
    | true => refine ⟨'t', _, rfl, ?_, ?_, ?_⟩ <;> decide
    | false => refine ⟨'f', _, rfl, ?_, ?_, ?_⟩ <;> decide
  | num n =>
    cases n with
    | ofNat m =>
      by_cases hm : m = 0
      · subst hm
        exact ⟨'0', [], by rw [serValue, intStr]; simp, by decide, by decide,
          by decide⟩
      · obtain ⟨c, t, hct, h49, h57⟩ := dstr_head (n := m) (by omega)
        refine ⟨c, t, ?_, isJsonWs_false_of_range (by omega),
          char_ne_of_toNat_ne (by rw [show (']').toNat = 93 from rfl]; omega),
          char_ne_of_toNat_ne (by rw [show ('}').toNat = 125 from rfl]; omega)⟩
        rw [serValue, intStr, if_neg hm, natToChars_eq (by omega), hct]
    | negSucc m =>
      refine ⟨'-', _, by rw [serValue, intStr], ?_, ?_, ?_⟩ <;> decide
  | str s => refine ⟨'"', _, rfl, ?_, ?_, ?_⟩ <;> decide
  | arr l =>
    cases l with
    | nil => refine ⟨'[', _, rfl, ?_, ?_, ?_⟩ <;> decide
    | cons v t => refine ⟨'[', _, rfl, ?_, ?_, ?_⟩ <;> decide
  | obj l =>
    cases l with
    | nil => refine ⟨'{', _, rfl, ?_, ?_, ?_⟩ <;> decide
    | cons p t => refine ⟨'{', _, rfl, ?_, ?_, ?_⟩ <;> decide

/-! ### Well-formed documents and parse fuel -/

/-- `k` does not occur among the keys of `l`. -/
def keyNotIn (k : List Char) : List (List Char × JsonValue) → Bool
  | [] => true
  | p :: t => if p.1 = k then false else keyNotIn k t

/-- The keys of `l` are pairwise distinct. -/
def keysDistinct : List (List Char × JsonValue) → Bool
  | [] => true
  | p :: t => keyNotIn p.1 t && keysDistinct t

mutual

/-- A document is well formed when every object in it has pairwise distinct
keys — exactly the documents `jsonLoads` produces, since a Python `dict`
cannot hold a key twice. -/
def jsonWF : JsonValue → Bool
  | .arr l => jsonWFElems l
  | .obj l => jsonWFMembers l && keysDistinct l
  | _ => true

def jsonWFElems : List JsonValue → Bool
  | [] => true
  | v :: t => jsonWF v && jsonWFElems t

def jsonWFMembers : List (List Char × JsonValue) → Bool
  | [] => true
  | p :: t => jsonWF p.2 && jsonWFMembers t

end

mutual

/-- Fuel sufficient for `parseValue` to parse a serialisation of `v`:
one unit per nesting step of the recursion. -/
def pfuel : JsonValue → ℕ
  | .arr l => 1 + pfuelElems l
  | .obj l => 1 + pfuelMembers l
  | _ => 1

def pfuelElems : List JsonValue → ℕ
  | [] => 0
  | v :: t => 1 + max (pfuel v) (pfuelElems t)

def pfuelMembers : List (List Char × JsonValue) → ℕ
  | [] => 0
  | p :: t => 1 + max (pfuel p.2) (pfuelMembers t)

end

theorem keyNotIn_of_mem {k : List Char} :
    ∀ {l : List (List Char × JsonValue)} {p : List Char × JsonValue},
      keyNotIn k l = true → p ∈ l → ¬ p.1 = k := by
  intro l
  induction l with
  | nil => intro p _ hp; simp at hp
  | cons q t ih =>
    intro p hk hp
    rw [keyNotIn] at hk
    by_cases hq : q.1 = k
    · rw [if_pos hq] at hk; exact absurd hk (by simp)
    · rw [if_neg hq] at hk
      rcases List.mem_cons.mp hp with rfl | hp
      · exact hq
      · exact ih hk hp

theorem keyNotIn_append {k : List Char}
    {a b : List (List Char × JsonValue)}
    (ha : keyNotIn k a = true) (hb : keyNotIn k b = true) :
    keyNotIn k (a ++ b) = true := by
  induction a with
  | nil => simpa using hb
  | cons q t ih =>
    rw [keyNotIn] at ha
    by_cases hq : q.1 = k
    · rw [if_pos hq] at ha; exact absurd ha (by simp)
    · rw [List.cons_append, keyNotIn, if_neg hq]
      exact ih (by rwa [if_neg hq] at ha)

theorem insertKey_append {k : List Char} {v : JsonValue} :
    ∀ {acc : List (List Char × JsonValue)}, keyNotIn k acc = true →
      insertKey acc k v = acc ++ [(k, v)] := by
  intro acc
  induction acc with
  | nil => intro _; rfl
  | cons p t ih =>
    intro hk
    rw [keyNotIn] at hk
    by_cases hp : p.1 = k
    · rw [if_pos hp] at hk; exact absurd hk (by simp)
    · rw [if_neg hp] at hk
      rw [insertKey, if_neg hp, ih hk, List.cons_append]

theorem pfuel_pos (v : JsonValue) : 1 ≤ pfuel v := by
  cases v <;> simp [pfuel]

theorem parseElems_ws {ws : List Char} (h : ∀ c ∈ ws, isJsonWs c = true)
    (g : ℕ) (s : List Char) (acc : List JsonValue) :
    parseElems (g + 1) (ws ++ s) acc = parseElems (g + 1) s acc := by
  cases g with
  | zero => simp only [parseElems, parseValue]
  | succ g2 => simp only [parseElems, parseValue_ws h]

/-- Main serialisation/parse round trip: a serialisation of a well-formed
document, followed by anything that does not continue a numeral, parses to
exactly the document, given fuel at least `pfuel`. -/
theorem serValue_parse (v : JsonValue) :
    ∀ (ind : Option ℕ) (lvl f : ℕ) (rest : List Char),
      jsonWF v = true → pfuel v ≤ f → DelimOk rest →
      parseValue f (serValue ind lvl v ++ rest) = some (v, rest) := by
  induction v using JsonValue.inductionOn with
  | hnull =>
    intro ind lvl f rest _ hfu _
    obtain ⟨f', rfl⟩ : ∃ f', f = f' + 1 :=
      ⟨f - 1, by have := pfuel_pos .null; omega⟩
    show parseValue (f' + 1) (['n', 'u', 'l', 'l'] ++ rest) = _
    simp only [List.cons_append, List.nil_append]
    exact pvNull f' rest
  | hbool b =>
    intro ind lvl f rest _ hfu _
    obtain ⟨f', rfl⟩ : ∃ f', f = f' + 1 :=
      ⟨f - 1, by have := pfuel_pos (.bool b); omega⟩
    cases b with
    | true =>
      show parseValue (f' + 1) (['t', 'r', 'u', 'e'] ++ rest) = _
      simp only [List.cons_append, List.nil_append]
      exact pvTrue f' rest
    | false =>
      show parseValue (f' + 1) (['f', 'a', 'l', 's', 'e'] ++ rest) = _
      simp only [List.cons_append, List.nil_append]
      exact pvFalse f' rest
  | hnum n =>
    intro ind lvl f rest _ hfu hd
    obtain ⟨f', rfl⟩ : ∃ f', f = f' + 1 :=
      ⟨f - 1, by have := pfuel_pos (.num n); omega⟩
    cases n with
    | ofNat m =>
      by_cases hm : m = 0
      · subst hm
        show parseValue (f' + 1) (['0'] ++ rest) = _
        simp only [List.cons_append, List.nil_append]
        exact pvNumZero f' rest
      · have hser : serValue ind lvl (.num (Int.ofNat m)) = natToChars m := by
          show intStr (Int.ofNat m) = _
          rw [intStr, if_neg hm]
        rw [hser, natToChars_eq (by omega)]
        obtain ⟨c, t, hct, h49, h57⟩ := dstr_head (n := m) (by omega)
        rw [hct]
        simp only [List.cons_append]
        rw [pvNumPos h49 h57, parseDigits_dstr hd hct]
        rfl
    | negSucc m =>
      have hser : serValue ind lvl (.num (Int.negSucc m)) =
          '-' :: natToChars (m + 1) := by
        show intStr (Int.negSucc m) = _
        rw [intStr]
      rw [hser, natToChars_eq (by omega)]
      obtain ⟨c, t, hct, h49, h57⟩ := dstr_head (n := m + 1) (by omega)
      rw [hct]
      simp only [List.cons_append]
      rw [pvNumNeg h49 h57, parseDigits_dstr hd hct]
      have harith : -(((m + 1 : ℕ) : ℤ)) = Int.negSucc m := by
        rw [Int.negSucc_eq]
        push_cast
        ring
      show some (JsonValue.num (-(((m + 1 : ℕ) : ℤ))), rest) = _
      rw [harith]
  | hstr s =>
    intro ind lvl f rest _ hfu _
    obtain ⟨f', rfl⟩ : ∃ f', f = f' + 1 :=
      ⟨f - 1, by have := pfuel_pos (.str s); omega⟩
    show parseValue (f' + 1) (serString s ++ rest) = _
    rw [serString]
    simp only [List.cons_append, List.append_assoc, List.singleton_append, List.nil_append]
    exact pvStr (parseStringBody_escape s rest) f'
  | harr l ihl =>
    intro ind lvl f rest hwf hfu hd
    obtain ⟨f', rfl⟩ : ∃ f', f = f' + 1 :=
      ⟨f - 1, by have := pfuel_pos (.arr l); omega⟩
    cases l with
    | nil =>
      show parseValue (f' + 1) (['[', ']'] ++ rest) = _
      simp only [List.cons_append, List.nil_append]
      exact pvArrNil f' rest
    | cons v t =>
      have hfuel : pfuelElems (v :: t) ≤ f' := by
        have : pfuel (.arr (v :: t)) = 1 + pfuelElems (v :: t) := rfl
        omega
      have hwfe : jsonWFElems (v :: t) = true := hwf
      have loop : ∀ (t' : List JsonValue) (v1 : JsonValue)
          (acc : List JsonValue) (g : ℕ),
          (∀ e ∈ v1 :: t', ∀ (ind2 : Option ℕ) (lvl2 f2 : ℕ)
            (rest2 : List Char), jsonWF e = true → pfuel e ≤ f2 →
            DelimOk rest2 →
            parseValue f2 (serValue ind2 lvl2 e ++ rest2) = some (e, rest2)) →
          jsonWFElems (v1 :: t') = true →
          pfuelElems (v1 :: t') ≤ g →
          parseElems g (serValue ind (lvl + 1) v1 ++
            (serArrItems ind (lvl + 1) t' ++
              (newlineIndent ind lvl ++ (']' :: rest)))) acc
            = some (.arr (acc ++ v1 :: t'), rest) := by
        intro t'
        induction t' with
        | nil =>
          intro v1 acc g helem hwfl hg
          have hwf1 : jsonWF v1 = true := by
            have : jsonWFElems [v1] = (jsonWF v1 && jsonWFElems []) := rfl
            rw [this] at hwfl
            simp at hwfl
            exact hwfl.1
          have hg1 : 1 + pfuel v1 ≤ g := by
            have h2 : pfuelElems [v1]
                = 1 + max (pfuel v1) (pfuelElems []) := rfl
            have h3 : pfuelElems ([] : List JsonValue) = 0 := rfl
            omega
          obtain ⟨g1, rfl⟩ : ∃ g1, g = g1 + 1 := ⟨g - 1, by omega⟩
          have hrest2 : DelimOk (newlineIndent ind lvl ++ (']' :: rest)) :=
            delimOk_nl_cons ind lvl (by decide) rest
          have hv : parseValue g1 (serValue ind (lvl + 1) v1 ++
              (newlineIndent ind lvl ++ (']' :: rest)))
              = some (v1, newlineIndent ind lvl ++ (']' :: rest)) :=
            helem v1 (by simp) ind (lvl + 1) g1 _ hwf1 (by omega) hrest2
          have hskip : skipWs (newlineIndent ind lvl ++ (']' :: rest))
              = ']' :: rest := by
            rw [skipWs_ws_append (newlineIndent_ws ind lvl),
              skipWs_cons_not_ws (by decide)]
          rw [show serArrItems ind (lvl + 1) ([] : List JsonValue) = []
            from rfl, List.nil_append]
          rw [peClose hv hskip acc]
        | cons v2 t'' ih =>
          intro v1 acc g helem hwfl hg
          have hwf1 : jsonWF v1 = true := by
            have : jsonWFElems (v1 :: v2 :: t'')
                = (jsonWF v1 && jsonWFElems (v2 :: t'')) := rfl
            rw [this] at hwfl
            exact (Bool.and_eq_true_iff.mp hwfl).1
          have hwfl2 : jsonWFElems (v2 :: t'') = true := by
            have : jsonWFElems (v1 :: v2 :: t'')
                = (jsonWF v1 && jsonWFElems (v2 :: t'')) := rfl
            rw [this] at hwfl
            exact (Bool.and_eq_true_iff.mp hwfl).2
          have hg1 : 1 + max (pfuel v1) (pfuelElems (v2 :: t'')) ≤ g := by
            have : pfuelElems (v1 :: v2 :: t'')
                = 1 + max (pfuel v1) (pfuelElems (v2 :: t'')) := rfl
            omega
          obtain ⟨g1, rfl⟩ : ∃ g1, g = g1 + 1 := ⟨g - 1, by omega⟩
          rw [show serArrItems ind (lvl + 1) (v2 :: t'')
            = itemSep ind (lvl + 1) ++ serValue ind (lvl + 1) v2 ++
              serArrItems ind (lvl + 1) t'' from rfl]
          rw [itemSep_eq]
          simp only [List.cons_append, List.append_assoc]
          have hrest2 : DelimOk (',' :: (sepTail ind (lvl + 1) ++
              (serValue ind (lvl + 1) v2 ++ (serArrItems ind (lvl + 1) t'' ++
                (newlineIndent ind lvl ++ (']' :: rest)))))) :=
            delimOk_cons (by decide) _
          have hv : parseValue g1 (serValue ind (lvl + 1) v1 ++
              (',' :: (sepTail ind (lvl + 1) ++
                (serValue ind (lvl + 1) v2 ++ (serArrItems ind (lvl + 1) t'' ++
                  (newlineIndent ind lvl ++ (']' :: rest)))))))
              = some (v1, _) :=
            helem v1 (by simp) ind (lvl + 1) g1 _ hwf1 (by omega) hrest2
          have hskip : skipWs (',' :: (sepTail ind (lvl + 1) ++
              (serValue ind (lvl + 1) v2 ++ (serArrItems ind (lvl + 1) t'' ++
                (newlineIndent ind lvl ++ (']' :: rest))))))
              = ',' :: (sepTail ind (lvl + 1) ++
                (serValue ind (lvl + 1) v2 ++ (serArrItems ind (lvl + 1) t'' ++
                  (newlineIndent ind lvl ++ (']' :: rest))))) :=
            skipWs_cons_not_ws (by decide)
          have hpe : pfuelElems (v2 :: t'')
              = 1 + max (pfuel v2) (pfuelElems t'') := rfl
          obtain ⟨g2, rfl⟩ : ∃ g2, g1 = g2 + 1 := ⟨g1 - 1, by omega⟩
          rw [peComma hv hskip acc]
          rw [parseElems_ws (sepTail_ws ind (lvl + 1))]
          rw [ih v2 (acc ++ [v1]) (g2 + 1)
            (fun e he => helem e (by simp at he ⊢; tauto)) hwfl2 (by omega)]
          simp
      rw [show serValue ind lvl (.arr (v :: t))
        = '[' :: newlineIndent ind (lvl + 1) ++ serValue ind (lvl + 1) v ++
          serArrItems ind (lvl + 1) t ++ newlineIndent ind lvl ++ [']']
        from rfl]
      simp only [List.cons_append, List.append_assoc, List.singleton_append, List.nil_append]
      obtain ⟨c2, cs, hser, hcws, hcbr, _⟩ := serValue_head ind (lvl + 1) v
      have hskip : skipWs (newlineIndent ind (lvl + 1) ++
          (serValue ind (lvl + 1) v ++ (serArrItems ind (lvl + 1) t ++
            (newlineIndent ind lvl ++ (']' :: rest)))))
          = c2 :: (cs ++ (serArrItems ind (lvl + 1) t ++
            (newlineIndent ind lvl ++ (']' :: rest)))) := by
        rw [skipWs_ws_append (newlineIndent_ws ind (lvl + 1)), hser,
          List.cons_append, skipWs_cons_not_ws hcws]
      rw [pvArrCons hskip hcbr f']
      rw [show c2 :: (cs ++ (serArrItems ind (lvl + 1) t ++
          (newlineIndent ind lvl ++ (']' :: rest))))
          = (c2 :: cs) ++ (serArrItems ind (lvl + 1) t ++
            (newlineIndent ind lvl ++ (']' :: rest))) from rfl, ← hser]
      rw [loop t v [] f' ihl hwfe hfuel]
      simp
  | hobj l ihl =>
    intro ind lvl f rest hwf hfu hd
    obtain ⟨f', rfl⟩ : ∃ f', f = f' + 1 :=
      ⟨f - 1, by have := pfuel_pos (.obj l); omega⟩
    cases l with
    | nil =>
      show parseValue (f' + 1) (['{', '}'] ++ rest) = _
      simp only [List.cons_append, List.nil_append]
      exact pvObjNil f' rest
    | cons p t =>
      have hfuel : pfuelMembers (p :: t) ≤ f' := by
        have : pfuel (.obj (p :: t)) = 1 + pfuelMembers (p :: t) := rfl
        omega
      have hwfm : jsonWFMembers (p :: t) = true := by
        have : jsonWF (.obj (p :: t))
            = (jsonWFMembers (p :: t) && keysDistinct (p :: t)) := rfl
        rw [this] at hwf
        exact (Bool.and_eq_true_iff.mp hwf).1
      have hkeys : keysDistinct (p :: t) = true := by
        have : jsonWF (.obj (p :: t))
            = (jsonWFMembers (p :: t) && keysDistinct (p :: t)) := rfl
        rw [this] at hwf
        exact (Bool.and_eq_true_iff.mp hwf).2
      have loop : ∀ (t' : List (List Char × JsonValue))
          (p1 : List Char × JsonValue)
          (acc : List (List Char × JsonValue)) (g : ℕ),
          (∀ q ∈ p1 :: t', ∀ (ind2 : Option ℕ) (lvl2 f2 : ℕ)
            (rest2 : List Char), jsonWF q.2 = true → pfuel q.2 ≤ f2 →
            DelimOk rest2 →
            parseValue f2 (serValue ind2 lvl2 q.2 ++ rest2)
              = some (q.2, rest2)) →
          jsonWFMembers (p1 :: t') = true →
          keysDistinct (p1 :: t') = true →
          (∀ q ∈ p1 :: t', keyNotIn q.1 acc = true) →
          pfuelMembers (p1 :: t') ≤ g →
          parseMembers g (serString p1.1 ++ (':' :: ' ' ::
            (serValue ind (lvl + 1) p1.2 ++ (serObjItems ind (lvl + 1) t' ++
              (newlineIndent ind lvl ++ ('}' :: rest)))))) acc
            = some (.obj (acc ++ p1 :: t'), rest) := by
        intro t'
        induction t' with
        | nil =>
          intro p1 acc g helem hwfl hkd hknotin hg
          obtain ⟨k1, v1⟩ := p1
          have hp2 : pfuel (((k1, v1) : List Char × JsonValue)).2
              = pfuel v1 := rfl
          have hwf1 : jsonWF v1 = true := by
            have : jsonWFMembers [(k1, v1)]
                = (jsonWF v1 && jsonWFMembers []) := rfl
            rw [this] at hwfl
            exact (Bool.and_eq_true_iff.mp hwfl).1
          have hg1 : 1 + pfuel v1 ≤ g := by
            have h2 : pfuelMembers [(k1, v1)]
                = 1 + max (pfuel v1) (pfuelMembers []) := rfl
            rw [show pfuelMembers ([] : List (List Char × JsonValue)) = 0
              from rfl] at h2
            simp at h2
            omega
          obtain ⟨g1, rfl⟩ : ∃ g1, g = g1 + 1 := ⟨g - 1, by omega⟩
          obtain ⟨g2, rfl⟩ : ∃ g2, g1 = g2 + 1 :=
            ⟨g1 - 1, by have := pfuel_pos v1; omega⟩
          rw [show serObjItems ind (lvl + 1)
            ([] : List (List Char × JsonValue)) = [] from rfl,
            List.nil_append]
          rw [serString]
          simp only [List.cons_append, List.append_assoc,
            List.singleton_append, List.nil_append]
          have hk := parseStringBody_escape k1 (':' :: ' ' ::
            (serValue ind (lvl + 1) v1 ++
              (newlineIndent ind lvl ++ ('}' :: rest))))
          have hc : skipWs (':' :: ' ' ::
              (serValue ind (lvl + 1) v1 ++
                (newlineIndent ind lvl ++ ('}' :: rest))))
              = ':' :: (' ' :: (serValue ind (lvl + 1) v1 ++
                (newlineIndent ind lvl ++ ('}' :: rest)))) :=
            skipWs_cons_not_ws (by decide)
          have hrest2 : DelimOk (newlineIndent ind lvl ++ ('}' :: rest)) :=
            delimOk_nl_cons ind lvl (by decide) rest
          have hv : parseValue (g2 + 1) (' ' ::
              (serValue ind (lvl + 1) v1 ++
                (newlineIndent ind lvl ++ ('}' :: rest))))
              = some (v1, newlineIndent ind lvl ++ ('}' :: rest)) := by
            have := @parseValue_ws [' '] (by decide) g2
              (serValue ind (lvl + 1) v1 ++
                (newlineIndent ind lvl ++ ('}' :: rest)))
            rw [show (' ' :: (serValue ind (lvl + 1) v1 ++
              (newlineIndent ind lvl ++ ('}' :: rest))))
              = [' '] ++ (serValue ind (lvl + 1) v1 ++
                (newlineIndent ind lvl ++ ('}' :: rest))) from rfl, this]
            exact helem (k1, v1) (by simp) ind (lvl + 1) (g2 + 1) _ hwf1
              (by omega) hrest2
          have hsep : skipWs (newlineIndent ind lvl ++ ('}' :: rest))
              = '}' :: rest := by
            rw [skipWs_ws_append (newlineIndent_ws ind lvl),
              skipWs_cons_not_ws (by decide)]
          rw [pmClose hk hc hv hsep acc]
          rw [insertKey_append (hknotin (k1, v1) (by simp))]
        | cons p2 t'' ih =>
          intro p1 acc g helem hwfl hkd hknotin hg
          obtain ⟨k1, v1⟩ := p1
          have hp2 : pfuel (((k1, v1) : List Char × JsonValue)).2
              = pfuel v1 := rfl
          have hwf1 : jsonWF v1 = true := by
            have : jsonWFMembers ((k1, v1) :: p2 :: t'')
                = (jsonWF v1 && jsonWFMembers (p2 :: t'')) := rfl
            rw [this] at hwfl
            exact (Bool.and_eq_true_iff.mp hwfl).1
          have hwfl2 : jsonWFMembers (p2 :: t'') = true := by
            have : jsonWFMembers ((k1, v1) :: p2 :: t'')
                = (jsonWF v1 && jsonWFMembers (p2 :: t'')) := rfl
            rw [this] at hwfl
            exact (Bool.and_eq_true_iff.mp hwfl).2
          have hk1notin : keyNotIn k1 (p2 :: t'') = true := by
            have : keysDistinct ((k1, v1) :: p2 :: t'')
                = (keyNotIn k1 (p2 :: t'') && keysDistinct (p2 :: t'')) := rfl
            rw [this] at hkd
            exact (Bool.and_eq_true_iff.mp hkd).1
          have hkd2 : keysDistinct (p2 :: t'') = true := by
            have : keysDistinct ((k1, v1) :: p2 :: t'')
                = (keyNotIn k1 (p2 :: t'') && keysDistinct (p2 :: t'')) := rfl
            rw [this] at hkd
            exact (Bool.and_eq_true_iff.mp hkd).2
          have hg1 : 1 + max (pfuel v1) (pfuelMembers (p2 :: t'')) ≤ g := by
            have : pfuelMembers ((k1, v1) :: p2 :: t'')
                = 1 + max (pfuel v1) (pfuelMembers (p2 :: t'')) := rfl
            omega
          obtain ⟨g1, rfl⟩ : ∃ g1, g = g1 + 1 := ⟨g - 1, by omega⟩
          obtain ⟨g2, rfl⟩ : ∃ g2, g1 = g2 + 1 :=
            ⟨g1 - 1, by have := pfuel_pos v1; omega⟩
          rw [show serObjItems ind (lvl + 1) (p2 :: t'')
            = itemSep ind (lvl + 1) ++ serString p2.1 ++ ':' :: ' ' ::
              serValue ind (lvl + 1) p2.2 ++ serObjItems ind (lvl + 1) t''
            from rfl]
          rw [itemSep_eq, serString, serString]
          simp only [List.cons_append, List.append_assoc,
            List.singleton_append, List.nil_append]
          have hk := parseStringBody_escape k1 (':' :: ' ' ::
            (serValue ind (lvl + 1) v1 ++ (',' :: (sepTail ind (lvl + 1) ++
              ('"' :: (escapeList p2.1 ++ ('"' :: (':' :: ' ' ::
                (serValue ind (lvl + 1) p2.2 ++
                  (serObjItems ind (lvl + 1) t'' ++
                    (newlineIndent ind lvl ++ ('}' :: rest))))))))))))
          have hc : skipWs (':' :: ' ' ::
              (serValue ind (lvl + 1) v1 ++ (',' :: (sepTail ind (lvl + 1) ++
                ('"' :: (escapeList p2.1 ++ ('"' :: (':' :: ' ' ::
                  (serValue ind (lvl + 1) p2.2 ++
                    (serObjItems ind (lvl + 1) t'' ++
                      (newlineIndent ind lvl ++ ('}' :: rest))))))))))))
              = ':' :: (' ' ::
                (serValue ind (lvl + 1) v1 ++ (',' :: (sepTail ind (lvl + 1) ++
                  ('"' :: (escapeList p2.1 ++ ('"' :: (':' :: ' ' ::
                    (serValue ind (lvl + 1) p2.2 ++
                      (serObjItems ind (lvl + 1) t'' ++
                        (newlineIndent ind lvl ++ ('}' :: rest)))))))))))) :=
            skipWs_cons_not_ws (by decide)
          have hrest2 : DelimOk (',' :: (sepTail ind (lvl + 1) ++
              ('"' :: (escapeList p2.1 ++ ('"' :: (':' :: ' ' ::
                (serValue ind (lvl + 1) p2.2 ++
                  (serObjItems ind (lvl + 1) t'' ++
                    (newlineIndent ind lvl ++ ('}' :: rest)))))))))) :=
            delimOk_cons (by decide) _
          have hv : parseValue (g2 + 1) (' ' ::
              (serValue ind (lvl + 1) v1 ++ (',' :: (sepTail ind (lvl + 1) ++
                ('"' :: (escapeList p2.1 ++ ('"' :: (':' :: ' ' ::
                  (serValue ind (lvl + 1) p2.2 ++
                    (serObjItems ind (lvl + 1) t'' ++
                      (newlineIndent ind lvl ++ ('}' :: rest))))))))))))
              = some (v1, ',' :: (sepTail ind (lvl + 1) ++
                ('"' :: (escapeList p2.1 ++ ('"' :: (':' :: ' ' ::
                  (serValue ind (lvl + 1) p2.2 ++
                    (serObjItems ind (lvl + 1) t'' ++
                      (newlineIndent ind lvl ++ ('}' :: rest)))))))))) := by
            rw [show (' ' :: (serValue ind (lvl + 1) v1 ++ (',' ::
              (sepTail ind (lvl + 1) ++ ('"' :: (escapeList p2.1 ++
                ('"' :: (':' :: ' ' :: (serValue ind (lvl + 1) p2.2 ++
                  (serObjItems ind (lvl + 1) t'' ++
                    (newlineIndent ind lvl ++ ('}' :: rest))))))))))))
              = [' '] ++ (serValue ind (lvl + 1) v1 ++ (',' ::
                (sepTail ind (lvl + 1) ++ ('"' :: (escapeList p2.1 ++
                  ('"' :: (':' :: ' ' :: (serValue ind (lvl + 1) p2.2 ++
                    (serObjItems ind (lvl + 1) t'' ++
                      (newlineIndent ind lvl ++ ('}' :: rest)))))))))))
              from rfl, @parseValue_ws [' '] (by decide) _ _]
            exact helem (k1, v1) (by simp) ind (lvl + 1) (g2 + 1) _ hwf1
              (by omega) hrest2
          have hsep : skipWs (',' :: (sepTail ind (lvl + 1) ++
              ('"' :: (escapeList p2.1 ++ ('"' :: (':' :: ' ' ::
                (serValue ind (lvl + 1) p2.2 ++
                  (serObjItems ind (lvl + 1) t'' ++
                    (newlineIndent ind lvl ++ ('}' :: rest))))))))))
              = ',' :: (sepTail ind (lvl + 1) ++
                ('"' :: (escapeList p2.1 ++ ('"' :: (':' :: ' ' ::
                  (serValue ind (lvl + 1) p2.2 ++
                    (serObjItems ind (lvl + 1) t'' ++
                      (newlineIndent ind lvl ++ ('}' :: rest))))))))) :=
            skipWs_cons_not_ws (by decide)
          rw [pmComma hk hc hv hsep acc]
          rw [skipWs_ws_append (sepTail_ws ind (lvl + 1)),
            skipWs_cons_not_ws (by decide)]
          rw [insertKey_append (hknotin (k1, v1) (by simp))]
          have hknotin2 : ∀ q ∈ p2 :: t'',
              keyNotIn q.1 (acc ++ [(k1, v1)]) = true := by
            intro q hq
            apply keyNotIn_append (hknotin q (by simp [hq]))
            have hq1 : ¬ q.1 = k1 := keyNotIn_of_mem hk1notin hq
            rw [keyNotIn, if_neg (fun e => hq1 e.symm)]
            rfl
          have := ih p2 (acc ++ [(k1, v1)]) (g2 + 1)
            (fun q hq => helem q (by simp at hq ⊢; tauto)) hwfl2 hkd2
            hknotin2 (by omega)
          rw [show ('"' :: (escapeList p2.1 ++ ('"' :: (':' :: ' ' ::
              (serValue ind (lvl + 1) p2.2 ++
                (serObjItems ind (lvl + 1) t'' ++
                  (newlineIndent ind lvl ++ ('}' :: rest))))))))
            = serString p2.1 ++ (':' :: ' ' ::
              (serValue ind (lvl + 1) p2.2 ++
                (serObjItems ind (lvl + 1) t'' ++
                  (newlineIndent ind lvl ++ ('}' :: rest))))) by
            rw [serString]
            simp only [List.cons_append, List.append_assoc,
              List.singleton_append, List.nil_append]]
          rw [this]
          simp
      rw [show serValue ind lvl (.obj (p :: t))
        = '{' :: newlineIndent ind (lvl + 1) ++ serString p.1 ++ ':' :: ' ' ::
          serValue ind (lvl + 1) p.2 ++ serObjItems ind (lvl + 1) t ++
          newlineIndent ind lvl ++ ['}']
        from rfl]
      rw [serString]
      simp only [List.cons_append, List.append_assoc, List.singleton_append, List.nil_append]
      have hskip : skipWs (newlineIndent ind (lvl + 1) ++
          ('"' :: (escapeList p.1 ++ ('"' :: (':' :: ' ' ::
            (serValue ind (lvl + 1) p.2 ++ (serObjItems ind (lvl + 1) t ++
              (newlineIndent ind lvl ++ ('}' :: rest)))))))))
          = '"' :: (escapeList p.1 ++ ('"' :: (':' :: ' ' ::
            (serValue ind (lvl + 1) p.2 ++ (serObjItems ind (lvl + 1) t ++
              (newlineIndent ind lvl ++ ('}' :: rest))))))) := by
        rw [skipWs_ws_append (newlineIndent_ws ind (lvl + 1)),
          skipWs_cons_not_ws (by decide)]
      rw [pvObjCons hskip (by decide) f']
      have hform : ('"' :: (escapeList p.1 ++ ('"' :: (':' :: ' ' ::
          (serValue ind (lvl + 1) p.2 ++ (serObjItems ind (lvl + 1) t ++
            (newlineIndent ind lvl ++ ('}' :: rest))))))))
          = serString p.1 ++ (':' :: ' ' ::
            (serValue ind (lvl + 1) p.2 ++ (serObjItems ind (lvl + 1) t ++
              (newlineIndent ind lvl ++ ('}' :: rest))))) := by
        rw [serString]
        simp only [List.cons_append, List.append_assoc,
          List.singleton_append, List.nil_append]
      rw [hform]
      rw [loop t p [] f' ihl hwfm hkeys (fun q _ => rfl) hfuel]
      simp

theorem serValue_length_pos (ind : Option ℕ) (lvl : ℕ) (v : JsonValue) :
    1 ≤ (serValue ind lvl v).length := by
  obtain ⟨c, cs, h, -, -, -⟩ := serValue_head ind lvl v
  rw [h]
  simp

theorem itemSep_length_pos (ind : Option ℕ) (lvl : ℕ) :
    1 ≤ (itemSep ind lvl).length := by
  cases ind <;> simp [itemSep]

/-- The parse fuel needed for a document never exceeds the length of its
serialisation (so `jsonLoads`, which uses the input length, always has
enough). -/
theorem pfuel_le_serLength (v : JsonValue) :
    ∀ (ind : Option ℕ) (lvl : ℕ), pfuel v ≤ (serValue ind lvl v).length := by
  induction v using JsonValue.inductionOn with
  | hnull =>
    intro ind lvl
    rw [show pfuel .null = 1 from rfl]
    exact serValue_length_pos ind lvl .null
  | hbool b =>
    intro ind lvl
    rw [show pfuel (.bool b) = 1 from rfl]
    exact serValue_length_pos ind lvl (.bool b)
  | hnum n =>
    intro ind lvl
    rw [show pfuel (.num n) = 1 from rfl]
    exact serValue_length_pos ind lvl (.num n)
  | hstr s =>
    intro ind lvl
    rw [show pfuel (.str s) = 1 from rfl]
    exact serValue_length_pos ind lvl (.str s)
  | harr l ihl =>
    intro ind lvl
    have elemsBound : ∀ (t' : List JsonValue),
        (∀ e ∈ t', ∀ (ind2 : Option ℕ) (lvl2 : ℕ),
          pfuel e ≤ (serValue ind2 lvl2 e).length) →
        ∀ lvl', pfuelElems t' ≤ (serArrItems ind lvl' t').length + 1 := by
      intro t'
      induction t' with
      | nil =>
        intro _ lvl'
        rw [show pfuelElems [] = 0 from rfl]
        omega
      | cons v2 t2 ih2 =>
        intro hmem lvl'
        have h1 := hmem v2 (by simp) ind lvl'
        have h2 := ih2 (fun e he ind2 lvl2 => hmem e (by simp [he]) ind2 lvl2)
          lvl'
        have h3 : pfuelElems (v2 :: t2)
            = 1 + max (pfuel v2) (pfuelElems t2) := rfl
        have h4 : (serArrItems ind lvl' (v2 :: t2)).length
            = (itemSep ind lvl').length + (serValue ind lvl' v2).length
              + (serArrItems ind lvl' t2).length := by
          rw [show serArrItems ind lvl' (v2 :: t2)
            = itemSep ind lvl' ++ serValue ind lvl' v2 ++
              serArrItems ind lvl' t2 from rfl]
          simp [List.length_append]
          omega
        have h5 := serValue_length_pos ind lvl' v2
        have h6 := itemSep_length_pos ind lvl'
        omega
    cases l with
    | nil =>
      rw [show pfuel (.arr []) = 1 + pfuelElems [] from rfl,
        show pfuelElems [] = 0 from rfl]
      have := serValue_length_pos ind lvl (.arr [])
      omega
    | cons v t =>
      have h1 := ihl v (by simp) ind (lvl + 1)
      have h2 := elemsBound t
        (fun e he ind2 lvl2 => ihl e (by simp [he]) ind2 lvl2) (lvl + 1)
      have h3 : pfuel (.arr (v :: t)) = 1 + pfuelElems (v :: t) := rfl
      have h4 : pfuelElems (v :: t) = 1 + max (pfuel v) (pfuelElems t) := rfl
      have h5 : (serValue ind lvl (.arr (v :: t))).length
          = 1 + (newlineIndent ind (lvl + 1)).length
            + (serValue ind (lvl + 1) v).length
            + (serArrItems ind (lvl + 1) t).length
            + (newlineIndent ind lvl).length + 1 := by
        rw [show serValue ind lvl (.arr (v :: t))
          = '[' :: newlineIndent ind (lvl + 1) ++ serValue ind (lvl + 1) v ++
            serArrItems ind (lvl + 1) t ++ newlineIndent ind lvl ++ [']']
          from rfl]
        simp [List.length_append]
        omega
      have h6 := serValue_length_pos ind (lvl + 1) v
      omega
  | hobj l ihl =>
    intro ind lvl
    have membersBound : ∀ (t' : List (List Char × JsonValue)),
        (∀ p ∈ t', ∀ (ind2 : Option ℕ) (lvl2 : ℕ),
          pfuel p.2 ≤ (serValue ind2 lvl2 p.2).length) →
        ∀ lvl', pfuelMembers t' ≤ (serObjItems ind lvl' t').length + 1 := by
      intro t'
      induction t' with
      | nil =>
        intro _ lvl'
        rw [show pfuelMembers [] = 0 from rfl]
        omega
      | cons p2 t2 ih2 =>
        intro hmem lvl'
        have h1 := hmem p2 (by simp) ind lvl'
        have h2 := ih2 (fun e he ind2 lvl2 => hmem e (by simp [he]) ind2 lvl2)
          lvl'
        have h3 : pfuelMembers (p2 :: t2)
            = 1 + max (pfuel p2.2) (pfuelMembers t2) := rfl
        have h4 : (serObjItems ind lvl' (p2 :: t2)).length
            = (itemSep ind lvl').length + (serString p2.1).length + 2
              + (serValue ind lvl' p2.2).length
              + (serObjItems ind lvl' t2).length := by
          rw [show serObjItems ind lvl' (p2 :: t2)
            = itemSep ind lvl' ++ serString p2.1 ++ ':' :: ' ' ::
              serValue ind lvl' p2.2 ++ serObjItems ind lvl' t2 from rfl]
          simp [List.length_append]
          omega
        have h5 := serValue_length_pos ind lvl' p2.2
        have h6 := itemSep_length_pos ind lvl'
        omega
    cases l with
    | nil =>
      rw [show pfuel (.obj []) = 1 + pfuelMembers [] from rfl,
        show pfuelMembers [] = 0 from rfl]
      have := serValue_length_pos ind lvl (.obj [])
      omega
    | cons p t =>
      have h1 := ihl p (by simp) ind (lvl + 1)
      have h2 := membersBound t
        (fun e he ind2 lvl2 => ihl e (by simp [he]) ind2 lvl2) (lvl + 1)
      have h3 : pfuel (.obj (p :: t)) = 1 + pfuelMembers (p :: t) := rfl
      have h4 : pfuelMembers (p :: t)
          = 1 + max (pfuel p.2) (pfuelMembers t) := rfl
      have h5 : (serValue ind lvl (.obj (p :: t))).length
          = 1 + (newlineIndent ind (lvl + 1)).length
            + (serString p.1).length + 2
            + (serValue ind (lvl + 1) p.2).length
            + (serObjItems ind (lvl + 1) t).length
            + (newlineIndent ind lvl).length + 1 := by
        rw [show serValue ind lvl (.obj (p :: t))
          = '{' :: newlineIndent ind (lvl + 1) ++ serString p.1 ++ ':' ::
            ' ' :: serValue ind (lvl + 1) p.2 ++ serObjItems ind (lvl + 1) t
            ++ newlineIndent ind lvl ++ ['}'] from rfl]
        simp [List.length_append]
        omega
      have h6 := serValue_length_pos ind (lvl + 1) p.2
      omega

/-- `json.loads` recovers any well-formed document from its `json.dumps`
serialisation, in compact or indented mode. -/
theorem jsonLoads_serValue (ind : Option ℕ) (v : JsonValue)
    (hwf : jsonWF v = true) : jsonLoads (serValue ind 0 v) = some v := by
  have hle : pfuel v ≤ (serValue ind 0 v).length + 1 :=
    le_trans (pfuel_le_serLength v ind 0) (by omega)
  have h := serValue_parse v ind 0 ((serValue ind 0 v).length + 1) [] hwf hle
    trivial
  rw [List.append_nil] at h
  rw [jsonLoads, h]
  rfl

/-! ### Response extraction (`generate_schema`, lines 80–89)

`re.search(r'```json\n(.*?)```', schema_text, re.DOTALL)`:  a match starts
at an occurrence of the literal fence opener; `re.search` takes the
leftmost start and the lazy `(.*?)` the nearest following closer.  A closer
following any later opener also follows the first opener, so a match exists
iff a closer follows the first opener, and the reported group is the text
between the first opener and the first closer after it. -/

/-- `(96 : Char)` is the backtick. -/
def fenceOpen : List Char :=
  [Char.ofNat 96, Char.ofNat 96, Char.ofNat 96, 'j', 's', 'o', 'n', '\n']

def fenceClose : List Char :=
  [Char.ofNat 96, Char.ofNat 96, Char.ofNat 96]

def startsWith : List Char → List Char → Bool
  | [], _ => true
  | _ :: _, [] => false
  | p :: ps, c :: cs => p = c && startsWith ps cs

/-- Index of the first occurrence of `pat` in `s`, if any. -/
def findStart (pat : List Char) : List Char → Option ℕ
  | [] => if startsWith pat [] then some 0 else none
  | c :: r =>
    if startsWith pat (c :: r) then some 0
    else (findStart pat r).map (· + 1)

/-- The regular-expression search of line 83: the contents of `group(1)` of
the first match, if the pattern matches. -/
def searchJsonFence (s : List Char) : Option (List Char) :=
  match findStart fenceOpen s with
  | none => none
  | some i =>
    let rest := s.drop (i + fenceOpen.length)
    match findStart fenceClose rest with
    | none => none
    | some j => some (rest.take j)

/-- Lines 80–88: take the fenced block's interior when the pattern matches,
the whole response text otherwise, and parse that with `json.loads`. -/
def extractSchema (schema_text : List Char) : Option JsonValue :=
  match searchJsonFence schema_text with
  | some inner => jsonLoads inner
  | none => jsonLoads schema_text

/-! ### `SchemaGenerator.generate_schema` (lines 62–99)

The upstream call's outcome is an input of the model: the response text on
success, or which exception `generate_content` raised.  The `try` block
maps each outcome to a return value: the parsed schema, or `None` after
displaying one of three error messages.  The displayed category is part of
the result so that the modelled function distinguishes the `except` arms
exactly as the user observes them. -/

inductive UpstreamOutcome where
  | success (text : List Char)
  | blockedPromptExc (msg : List Char)
  | otherExc (msg : List Char)

/-- The observable result of `generate_schema`: the returned document, or
`None` together with which error message was displayed (lines 91–99). -/
inductive GenerateResult where
  | ok (doc : JsonValue)
  | errBlocked
  | errParseFailure
  | errUpstream (msg : List Char)

/-- `generate_schema` (lines 69–99) as a function of the limiter state, the
entry time read inside `RateLimiter.wait`, and the upstream outcome.
Returns the new limiter state, the time slept, and the result.  The limiter
is updated first (line 71 runs before the `generate_content` call of line
74), so the update does not depend on the outcome. -/
def generate_schema (rl : RateLimiter) (now : ℚ) (resp : UpstreamOutcome) :
    RateLimiter × ℚ × GenerateResult :=
  let w := rl.wait now
  (w.1, w.2,
    match resp with
    | .success text =>
      match extractSchema text with
      | some schema => .ok schema
      | none => .errParseFailure
    | .blockedPromptExc _ => .errBlocked
    | .otherExc m => .errUpstream m)

/-! ### UTF-8 (`uploaded_file.getvalue().decode('utf-8')`, line 146)

The uploaded blob is bytes; `bytes.decode('utf-8')` is CPython's strict
UTF-8 decoder: it rejects stray continuation bytes, overlong forms
(including lead bytes `C0`/`C1` and sequences below the minimum of their
length class), surrogates and code points above `0x10FFFF`.  `mkChar`
already rejects exactly the surrogates and out-of-range values.  Encoding
models how the browser/Streamlit turns downloaded text into the file's
bytes. -/

def utf8EncodeChar (c : Char) : List ℕ :=
  if c.toNat < 128 then [c.toNat]
  else if c.toNat < 2048 then [192 + c.toNat / 64, 128 + c.toNat % 64]
  else if c.toNat < 65536 then
    [224 + c.toNat / 4096, 128 + c.toNat / 64 % 64, 128 + c.toNat % 64]
  else
    [240 + c.toNat / 262144, 128 + c.toNat / 4096 % 64,
     128 + c.toNat / 64 % 64, 128 + c.toNat % 64]

def utf8Encode : List Char → List ℕ
  | [] => []
  | c :: t => utf8EncodeChar c ++ utf8Encode t

def utf8Step (b : ℕ) (bs : List ℕ) : Option (Char × List ℕ) :=
  if b < 128 then
    match mkChar b with
    | some c => some (c, bs)
    | none => none
  else if b < 194 then none
  else if b < 224 then
    if 128 ≤ bs.headI ∧ bs.headI < 192 then
      match mkChar ((b - 192) * 64 + (bs.headI - 128)) with
      | some c => some (c, bs.tail)
      | none => none
    else none
  else if b < 240 then
    if 128 ≤ bs.headI ∧ bs.headI < 192 ∧ 128 ≤ bs.tail.headI ∧
        bs.tail.headI < 192 ∧
        2048 ≤ (b - 224) * 4096 + (bs.headI - 128) * 64
          + (bs.tail.headI - 128) then
      match mkChar ((b - 224) * 4096 + (bs.headI - 128) * 64
          + (bs.tail.headI - 128)) with
      | some c => some (c, bs.tail.tail)
      | none => none
    else none
  else if b < 245 then
    if 128 ≤ bs.headI ∧ bs.headI < 192 ∧ 128 ≤ bs.tail.headI ∧
        bs.tail.headI < 192 ∧ 128 ≤ bs.tail.tail.headI ∧
        bs.tail.tail.headI < 192 ∧
        65536 ≤ (b - 240) * 262144 + (bs.headI - 128) * 4096
          + (bs.tail.headI - 128) * 64 + (bs.tail.tail.headI - 128) then
      match mkChar ((b - 240) * 262144 + (bs.headI - 128) * 4096
          + (bs.tail.headI - 128) * 64 + (bs.tail.tail.headI - 128)) with
      | some c => some (c, bs.tail.tail.tail)
      | none => none
    else none
  else none

def utf8DecodeF : ℕ → List ℕ → Option (List Char)
  | 0, _ => none
  | _ + 1, [] => some []
  | f + 1, b :: bs =>
    match utf8Step b bs with
    | some (c, rest) => (utf8DecodeF f rest).map (fun t => c :: t)
    | none => none

/-- Each step consumes at least one byte, so `length + 1` fuel always
suffices. -/
def utf8Decode (bs : List ℕ) : Option (List Char) :=
  utf8DecodeF (bs.length + 1) bs

set_option maxRecDepth 4000 in
theorem utf8Step_encodeChar (c : Char) (r : List ℕ) :
    ∀ b bsc, utf8EncodeChar c = b :: bsc → utf8Step b (bsc ++ r) = some (c, r) := by
  intro b bsc he
  have hv := char_toNat_valid c
  by_cases h1 : c.toNat < 128
  · rw [utf8EncodeChar, if_pos h1] at he
    obtain ⟨rfl, rfl⟩ : b = c.toNat ∧ bsc = [] := by
      constructor <;> injection he <;> simp_all
    rw [utf8Step.eq_def, if_pos h1, mkChar_of_toNat]
    rfl
  · by_cases h2 : c.toNat < 2048
    · rw [utf8EncodeChar, if_neg h1, if_pos h2] at he
      obtain ⟨rfl, rfl⟩ : b = 192 + c.toNat / 64 ∧ bsc = [128 + c.toNat % 64] := by
        constructor <;> injection he <;> simp_all
      rw [List.cons_append, List.nil_append]
      rw [utf8Step.eq_def]
      simp only [List.headI_cons, List.tail_cons]
      rw [if_neg (by omega), if_neg (by omega), if_pos (by omega)]
      rw [if_pos (show 128 ≤ 128 + c.toNat % 64 ∧ 128 + c.toNat % 64 < 192
        by omega)]
      have harg : (192 + c.toNat / 64 - 192) * 64 + (128 + c.toNat % 64
          - 128) = c.toNat := by omega
      rw [harg, mkChar_of_toNat]
    · by_cases h3 : c.toNat < 65536
      · rw [utf8EncodeChar, if_neg h1, if_neg h2, if_pos h3] at he
        obtain ⟨rfl, rfl⟩ : b = 224 + c.toNat / 4096 ∧
            bsc = [128 + c.toNat / 64 % 64, 128 + c.toNat % 64] := by
          constructor <;> injection he <;> simp_all
        rw [List.cons_append, List.cons_append, List.nil_append]
        rw [utf8Step.eq_def]
        simp only [List.headI_cons, List.tail_cons]
        rw [if_neg (by omega), if_neg (by omega), if_neg (by omega),
          if_pos (by omega)]
        rw [if_pos (by omega : 128 ≤ 128 + c.toNat / 64 % 64 ∧
          128 + c.toNat / 64 % 64 < 192 ∧ 128 ≤ 128 + c.toNat % 64 ∧
          128 + c.toNat % 64 < 192 ∧
          2048 ≤ (224 + c.toNat / 4096 - 224) * 4096
            + (128 + c.toNat / 64 % 64 - 128) * 64
            + (128 + c.toNat % 64 - 128))]
        have harg : (224 + c.toNat / 4096 - 224) * 4096
            + (128 + c.toNat / 64 % 64 - 128) * 64
            + (128 + c.toNat % 64 - 128) = c.toNat := by omega
        rw [harg, mkChar_of_toNat]
      · rw [utf8EncodeChar, if_neg h1, if_neg h2, if_neg h3] at he
        have hub : c.toNat < 1114112 := by omega
        obtain ⟨rfl, rfl⟩ : b = 240 + c.toNat / 262144 ∧
            bsc = [128 + c.toNat / 4096 % 64, 128 + c.toNat / 64 % 64,
              128 + c.toNat % 64] := by
          constructor <;> injection he <;> simp_all
        rw [List.cons_append, List.cons_append, List.cons_append,
          List.nil_append]
        rw [utf8Step.eq_def]
        simp only [List.headI_cons, List.tail_cons]
        rw [if_neg (by omega), if_neg (by omega), if_neg (by omega),
          if_neg (by omega), if_pos (by omega)]
        rw [if_pos (by omega : 128 ≤ 128 + c.toNat / 4096 % 64 ∧
          128 + c.toNat / 4096 % 64 < 192 ∧ 128 ≤ 128 + c.toNat / 64 % 64 ∧
          128 + c.toNat / 64 % 64 < 192 ∧ 128 ≤ 128 + c.toNat % 64 ∧
          128 + c.toNat % 64 < 192 ∧
          65536 ≤ (240 + c.toNat / 262144 - 240) * 262144
            + (128 + c.toNat / 4096 % 64 - 128) * 4096
            + (128 + c.toNat / 64 % 64 - 128) * 64
            + (128 + c.toNat % 64 - 128))]
        have harg : (240 + c.toNat / 262144 - 240) * 262144
            + (128 + c.toNat / 4096 % 64 - 128) * 4096
            + (128 + c.toNat / 64 % 64 - 128) * 64
            + (128 + c.toNat % 64 - 128) = c.toNat := by omega
        rw [harg, mkChar_of_toNat]

theorem utf8EncodeChar_cons (c : Char) :
    ∃ b bsc, utf8EncodeChar c = b :: bsc ∧ (b :: bsc).length ≤ 4 := by
  rw [utf8EncodeChar]
  by_cases h1 : c.toNat < 128
  · rw [if_pos h1]
    exact ⟨_, _, rfl, by simp⟩
  · rw [if_neg h1]
    by_cases h2 : c.toNat < 2048
    · rw [if_pos h2]
      exact ⟨_, _, rfl, by simp⟩
    · rw [if_neg h2]
      by_cases h3 : c.toNat < 65536
      · rw [if_pos h3]
        exact ⟨_, _, rfl, by simp⟩
      · rw [if_neg h3]
        exact ⟨_, _, rfl, by simp⟩

theorem utf8DecodeF_encode (s : List Char) :
    ∀ f, (utf8Encode s).length < f → utf8DecodeF f (utf8Encode s) = some s := by
  induction s with
  | nil =>
    intro f hf
    match f, hf with
    | g + 1, _ => rfl
  | cons c t ih =>
    intro f hf
    obtain ⟨b, bsc, he, -⟩ := utf8EncodeChar_cons c
    have henc : utf8Encode (c :: t) = b :: (bsc ++ utf8Encode t) := by
      rw [show utf8Encode (c :: t) = utf8EncodeChar c ++ utf8Encode t
        from rfl, he, List.cons_append]
    have hlen : (utf8Encode (c :: t)).length
        = 1 + bsc.length + (utf8Encode t).length := by
      rw [henc]
      simp [List.length_append]
      omega
    match f, hf with
    | g + 1, hf =>
      rw [henc, utf8DecodeF, utf8Step_encodeChar c (utf8Encode t) b bsc he]
      show (utf8DecodeF g (utf8Encode t)).map (fun l => c :: l) = some (c :: t)
      rw [ih g (by omega)]
      rfl

theorem utf8Decode_utf8Encode (s : List Char) :
    utf8Decode (utf8Encode s) = some s :=
  utf8DecodeF_encode s ((utf8Encode s).length + 1) (by omega)

/-! ### The upload batch (`_upload_schema_files`, lines 138–196)

Per file: decode the bytes as UTF-8, parse as JSON, insert a row and commit
— each file inside its own `try`.  A `json.JSONDecodeError` appends to
`failed_uploads` with message `"Invalid JSON format"`; any other exception
(such as `UnicodeDecodeError` from `decode('utf-8')`) appends with
`str(e)`.  `uuid.uuid4()` is modelled as a fresh-id counter advanced once
per inserted row; `datetime.now()` as a constant of the batch. -/

def uploadedTag (name : List Char) : List Char :=
  ("Uploaded: ").toList ++ name

structure UploadFile where
  name : List Char
  content : List ℕ

/-- One row of the `schemas` table (lines 105–112): the payload is stored
as the text `json.dumps(schema)`. -/
structure SchemaRecord where
  id : ℕ
  prompt : List Char
  schema : List Char
  created_at : ℕ

/-- Which `except` arm of lines 167–176 reported the file. -/
inductive UploadError where
  | invalidJson
  | decodeError

structure UploadOutcome where
  db : List SchemaRecord
  nextId : ℕ
  successful_uploads : List (List Char × ℕ × JsonValue)
  failed_uploads : List (List Char × UploadError)

def upload_schema_files (db : List SchemaRecord) (nextId now : ℕ) :
    List UploadFile → UploadOutcome
  | [] => ⟨db, nextId, [], []⟩
  | f :: fs =>
    match utf8Decode f.content with
    | none =>
      let rest := upload_schema_files db nextId now fs
      ⟨rest.db, rest.nextId, rest.successful_uploads,
       (f.name, .decodeError) :: rest.failed_uploads⟩
    | some text =>
      match jsonLoads text with
      | none =>
        let rest := upload_schema_files db nextId now fs
        ⟨rest.db, rest.nextId, rest.successful_uploads,
         (f.name, .invalidJson) :: rest.failed_uploads⟩
      | some schema =>
        let rest := upload_schema_files
          (db ++ [⟨nextId, uploadedTag f.name, jsonDumps schema, now⟩])
          (nextId + 1) now fs
        ⟨rest.db, rest.nextId,
         (f.name, nextId, schema) :: rest.successful_uploads,
         rest.failed_uploads⟩

/-! ### Export and re-import (lines 266–275 and 146–149) -/

/-- The download of one record: `json.dumps(schema, indent=2)` (line 272). -/
def exportRecord (v : JsonValue) : List Char := jsonDumpsIndent2 v

/-- What the upload path makes of a file's bytes (lines 146–149):
UTF-8-decode, then `json.loads`. -/
def reimport (content : List ℕ) : Option JsonValue :=
  match utf8Decode content with
  | none => none
  | some text => jsonLoads text

/-! ### The generate tab (`run`, lines 314–343)

`if schema:` (line 320) is Python truthiness on the value `generate_schema`
returned: `None`, and also falsy documents (`{}`, `[]`, `0`, `""`,
`False`), skip the insert. -/

def isTruthy : JsonValue → Bool
  | .null => false
  | .bool b => b
  | .num n => decide (n ≠ 0)
  | .str s => decide (s ≠ [])
  | .arr l => !l.isEmpty
  | .obj l => !l.isEmpty

def GenerateResult.isErr : GenerateResult → Bool
  | .ok _ => false
  | _ => true

/-- One press of the Generate button (lines 316–343): call
`generate_schema`, and insert a row only when the returned value is truthy.
Returns the store, the fresh-id counter, and what `generate_schema`
produced. -/
def run_generate_step (db : List SchemaRecord) (nextId now : ℕ)
    (prompt : List Char) (rl : RateLimiter) (tnow : ℚ)
    (resp : UpstreamOutcome) :
    List SchemaRecord × ℕ × RateLimiter × ℚ × GenerateResult :=
  match generate_schema rl tnow resp with
  | (rl2, slept, .ok schema) =>
    if isTruthy schema then
      (db ++ [⟨nextId, prompt, jsonDumps schema, now⟩], nextId + 1, rl2,
       slept, .ok schema)
    else (db, nextId, rl2, slept, .ok schema)
  | (rl2, slept, .errBlocked) => (db, nextId, rl2, slept, .errBlocked)
  | (rl2, slept, .errParseFailure) =>
    (db, nextId, rl2, slept, .errParseFailure)
  | (rl2, slept, .errUpstream m) => (db, nextId, rl2, slept, .errUpstream m)

/-! ### The spec's concrete extraction examples (§8) -/

def sampleDoc : JsonValue := .obj [("a".toList, .num 1)]

def sampleFenced : List Char := fenceOpen ++ "\x7b\"a\":1\x7d\n".toList ++ fenceClose

def sampleRaw : List Char := "\x7b\"a\":1\x7d".toList

def sampleGarbage : List Char := "not json at all".toList

/-- C4: extraction is the two-stage fallback of lines 80–88: when the
`json`-labelled fence pattern matches, the fenced block's interior is
parsed; otherwise the whole response text is parsed; so a parse failure is
reported exactly when the stage that applies fails.  Concretely, the fenced
example and the raw example both yield the document `a ↦ 1`, and
`not json at all` yields the parse failure `None`. -/
theorem extraction_two_stage_and_examples :
    (∀ (s inner : List Char), searchJsonFence s = some inner →
      extractSchema s = jsonLoads inner)
  ∧ (∀ (s : List Char), searchJsonFence s = none →
      extractSchema s = jsonLoads s)
  ∧ extractSchema sampleFenced = some sampleDoc
  ∧ extractSchema sampleRaw = some sampleDoc
  ∧ extractSchema sampleGarbage = none := by
  refine ⟨?_, ?_, ?_, ?_, ?_⟩
  · intro s inner h
    simp only [extractSchema, h]
  · intro s h
    simp only [extractSchema, h]
  · rfl
  · rfl
  · rfl

/-- C5: `generate_schema` (lines 69–99) always returns one of the four
typed results, one per arm of its `try`/`except` (lines 74–99): the parsed
document on success, `None` after the blocked-prompt message, `None` after
the parse-failure message, or `None` after the generic message carrying the
exception's text — so no upstream outcome escapes the call unhandled. -/
theorem generate_schema_result_taxonomy (rl : RateLimiter) (now : ℚ)
    (resp : UpstreamOutcome) :
    (∃ text doc, resp = .success text ∧ extractSchema text = some doc ∧
      (generate_schema rl now resp).2.2 = .ok doc)
  ∨ (∃ text, resp = .success text ∧ extractSchema text = none ∧
      (generate_schema rl now resp).2.2 = .errParseFailure)
  ∨ (∃ msg, resp = .blockedPromptExc msg ∧
      (generate_schema rl now resp).2.2 = .errBlocked)
  ∨ (∃ msg, resp = .otherExc msg ∧
      (generate_schema rl now resp).2.2 = .errUpstream msg) := by
  cases resp with
  | success text =>
    cases he : extractSchema text with
    | some doc =>
      exact Or.inl ⟨text, doc, rfl, he, by simp [generate_schema, he]⟩
    | none =>
      exact Or.inr (Or.inl ⟨text, rfl, he, by simp [generate_schema, he]⟩)
  | blockedPromptExc m => exact Or.inr (Or.inr (Or.inl ⟨m, rfl, rfl⟩))
  | otherExc m => exact Or.inr (Or.inr (Or.inr ⟨m, rfl, rfl⟩))

/-- C7: the per-file `try`/`except` of lines 143–176 isolates failures.
For a batch of three files whose middle file's text is not valid JSON
while the other two decode and parse, the outcome is exactly two inserted
rows (files 1 and 3, in order, with fresh ids), two successful-upload
entries, and one failure entry naming file 2 with the invalid-JSON
error. -/
theorem upload_batch_isolates_failures (db0 : List SchemaRecord)
    (nid now : ℕ) (f1 f2 f3 : UploadFile) (t1 t2 t3 : List Char)
    (v1 v3 : JsonValue)
    (h1d : utf8Decode f1.content = some t1) (h1p : jsonLoads t1 = some v1)
    (h2d : utf8Decode f2.content = some t2) (h2p : jsonLoads t2 = none)
    (h3d : utf8Decode f3.content = some t3) (h3p : jsonLoads t3 = some v3) :
    upload_schema_files db0 nid now [f1, f2, f3]
      = ⟨db0 ++ [⟨nid, uploadedTag f1.name, jsonDumps v1, now⟩,
                 ⟨nid + 1, uploadedTag f3.name, jsonDumps v3, now⟩],
         nid + 2,
         [(f1.name, nid, v1), (f3.name, nid + 1, v3)],
         [(f2.name, .invalidJson)]⟩ := by
  simp only [upload_schema_files, h1d, h1p, h2d, h2p, h3d, h3p,
    List.append_assoc, List.singleton_append, List.cons_append,
    List.nil_append]

def fileGood1 : UploadFile := ⟨"a.json".toList, utf8Encode "\x7b\"a\": 1\x7d".toList⟩

def fileBad2 : UploadFile := ⟨"b.json".toList, utf8Encode "not json".toList⟩

def fileGood3 : UploadFile := ⟨"c.json".toList, utf8Encode "[1, 2]".toList⟩

/-- Witness for `upload_batch_isolates_failures`: an empty store, ids from
0, and the three concrete files; the middle one's bytes are not JSON. -/
theorem upload_batch_isolates_failures_witness :
    upload_schema_files [] 0 7 [fileGood1, fileBad2, fileGood3]
      = ⟨[⟨0, uploadedTag fileGood1.name,
            jsonDumps (JsonValue.obj [(['a'], JsonValue.num 1)]), 7⟩,
          ⟨1, uploadedTag fileGood3.name,
            jsonDumps (JsonValue.arr [JsonValue.num 1, JsonValue.num 2]), 7⟩],
         2,
         [(fileGood1.name, 0, JsonValue.obj [(['a'], JsonValue.num 1)]),
          (fileGood3.name, 1, JsonValue.arr [JsonValue.num 1, JsonValue.num 2])],
         [(fileBad2.name, UploadError.invalidJson)]⟩ :=
  upload_batch_isolates_failures [] 0 7 fileGood1 fileBad2 fileGood3
    ("\x7b\"a\": 1\x7d".toList) ("not json".toList) ("[1, 2]".toList)
    (JsonValue.obj [(['a'], JsonValue.num 1)])
    (JsonValue.arr [JsonValue.num 1, JsonValue.num 2])
    rfl rfl rfl rfl rfl rfl

/-- C8: the round trip.  Exporting a stored payload as the pretty-printed
download of line 272 and re-importing those bytes through the upload path
(UTF-8 decode of line 146, `json.loads` of line 149) returns the original
payload, for every well-formed document (distinct keys per object, as
`json.dumps` output always has). -/
theorem export_reimport_roundtrip (v : JsonValue) (hwf : jsonWF v = true) :
    reimport (utf8Encode (exportRecord v)) = some v := by
  have hd := utf8Decode_utf8Encode (exportRecord v)
  simp only [reimport, hd]
  exact jsonLoads_serValue (some 2) v hwf

/-- Witness for `export_reimport_roundtrip`: the document `a ↦ 1`. -/
theorem export_reimport_roundtrip_witness :
    reimport (utf8Encode (exportRecord (JsonValue.obj [(['a'], JsonValue.num 1)])))
      = some (JsonValue.obj [(['a'], JsonValue.num 1)]) :=
  export_reimport_roundtrip (JsonValue.obj [(['a'], JsonValue.num 1)])
    (by simp [jsonWF, jsonWFMembers, jsonWFElems, keysDistinct, keyNotIn])

/-- C9: a record is inserted only on success.  When `generate_schema`
returns with any of the three displayed errors (blocked prompt, parse
failure, other upstream error), the button handler of lines 314–343 skips
the `INSERT` of line 325: the store and the id supply are unchanged. -/
theorem no_record_on_generation_error (db : List SchemaRecord)
    (nextId now : ℕ) (prompt : List Char) (rl : RateLimiter) (tnow : ℚ)
    (resp : UpstreamOutcome)
    (h : ((generate_schema rl tnow resp).2.2).isErr = true) :
    (run_generate_step db nextId now prompt rl tnow resp).1 = db ∧
    (run_generate_step db nextId now prompt rl tnow resp).2.1 = nextId := by
  cases resp with
  | success text =>
    cases he : extractSchema text with
    | some doc =>
      have hok : (generate_schema rl tnow (.success text)).2.2 = .ok doc := by
        simp [generate_schema, he]
      rw [hok] at h
      exact absurd h (by simp [GenerateResult.isErr])
    | none =>
      constructor <;> simp [run_generate_step, generate_schema, he]
  | blockedPromptExc m =>
    constructor <;> simp [run_generate_step, generate_schema]
  | otherExc m =>
    constructor <;> simp [run_generate_step, generate_schema]

/-- Witness for `no_record_on_generation_error`: an upstream exception on
an empty store leaves the store empty. -/
theorem no_record_on_generation_error_witness :
    (run_generate_step [] 0 0 [] ⟨1, 60, []⟩ 0 (.otherExc [])).1 = [] ∧
    (run_generate_step [] 0 0 [] ⟨1, 60, []⟩ 0 (.otherExc [])).2.1 = 0 :=
  no_record_on_generation_error [] 0 0 [] ⟨1, 60, []⟩ 0 (.otherExc []) rfl

/-- C10: `generate_schema` calls `rate_limiter.wait()` (line 71) before
`generate_content` (line 74), so every invocation updates the limiter
exactly as one `wait` call — independently of the upstream outcome, a
failing invocation included — and the recorded timestamp is the entry
time `now`, appended after the eviction, even when the call slept. -/
theorem generate_schema_consumes_one_slot (rl : RateLimiter) (now : ℚ)
    (resp : UpstreamOutcome) :
    (generate_schema rl now resp).1 = (rl.wait now).1
  ∧ (generate_schema rl now resp).2.1 = (rl.wait now).2
  ∧ (generate_schema rl now resp).1.request_times
      = evictOld rl.time_frame now rl.request_times ++ [now] :=
  ⟨rfl, rfl, wait_request_times rl now⟩

end App
